import Mathlib

/-
Verification of the reactive subscription engine of `dynamodb-reactive`.

The development shallowly embeds the TypeScript sources:
  * JavaScript runtime values are modelled by `JsValue` (numbers as `Int`,
    objects as ordered field lists, `undefined` as an explicit value);
  * the dependency extractor (`dependency-extractor.ts`):
    `createDependencyKey`, `parseDependencyKey`, `extractAffectedKeys`,
    `extractDependencies`, `operationToQueryMetadata`, `DependencyTracker`;
  * the filter evaluator (`filter-evaluator.ts`): `evaluateFilter` and friends;
  * the filter builder (`query-builder.ts`): `FilterBuilderImpl`;
  * the reactive handler (`reactive-handler.ts`): `handleSubscribe` /
    `handleRequest`, modelled as pure state transformers;
  * the stream handler's `updateQueryState`;
  * the client `WebSocketManager.scheduleReconnect`;
  * the patch engine, modelled from the spec (the structural diff/apply is
    delegated to the external `fast-json-patch` package, whose code is not
    part of the repository).
-/

namespace DR

/-! ## JavaScript values

`JsValue`, `JsList` and `JsFields` form a mutual inductive family modelling
JSON-like JavaScript runtime values (`unknown` in the sources).  Objects are
ordered association lists, mirroring JavaScript's insertion-ordered objects.
`undef` models the JavaScript value `undefined`. -/

mutual

inductive JsValue where
  | undef
  | null
  | bool (b : Bool)
  | num (n : Int)
  | str (s : String)
  | arr (elems : JsList)
  | obj (fields : JsFields)
deriving DecidableEq, Repr

inductive JsList where
  | nil
  | cons (head : JsValue) (tail : JsList)
deriving DecidableEq, Repr

inductive JsFields where
  | nil
  | cons (name : String) (val : JsValue) (tail : JsFields)
deriving DecidableEq, Repr

end

/-- Convert a `JsList` to an ordinary Lean list (for specification purposes). -/
def JsList.toList : JsList → List JsValue
  | .nil => []
  | .cons h t => h :: t.toList

/-- Convert a `JsFields` to an ordinary Lean association list. -/
def JsFields.toList : JsFields → List (String × JsValue)
  | .nil => []
  | .cons k v t => (k, v) :: t.toList

/-- Length of a `JsList`. -/
def JsList.length : JsList → Nat
  | .nil => 0
  | .cons _ t => t.length + 1

/-! ## String helpers

Lean's built-in `String` order and `String.startsWith` do not reduce in the
kernel, so the character-level operations used by the embedding are defined
from scratch over `String.data`. -/

/-- Character strict order by code point (model of JavaScript's `<` and of the
locale-independent core of `localeCompare`). -/
def charLtB (a b : Char) : Bool := a.toNat < b.toNat

/-- Lexicographic strict order on character lists. -/
def strLtCore : List Char → List Char → Bool
  | [], [] => false
  | [], _ :: _ => true
  | _ :: _, [] => false
  | a :: as, b :: bs =>
    if charLtB a b then true
    else if charLtB b a then false
    else strLtCore as bs

/-- Lexicographic strict order on strings. -/
def strLtB (s t : String) : Bool := strLtCore s.data t.data

/-- Model of JavaScript `String.prototype.split` with a single-character
separator, at the character-list level.  Always returns a non-empty list of
segments. -/
def splitOnCharCore (sep : Char) : List Char → List (List Char)
  | [] => [[]]
  | c :: cs =>
    match splitOnCharCore sep cs with
    | [] => [[]]
    | seg :: rest => if c = sep then [] :: seg :: rest else (c :: seg) :: rest

/-- Model of JavaScript `Array.prototype.join` with a single-character
separator, at the character-list level. -/
def joinWithChar (sep : Char) : List (List Char) → List Char
  | [] => []
  | [s] => s
  | s :: rest => s ++ sep :: joinWithChar sep rest

/-- `jsSplit sep s` models `s.split(sep)` from JavaScript. -/
def jsSplit (sep : Char) (s : String) : List String :=
  (splitOnCharCore sep s.data).map String.mk

/-- `jsJoin sep parts` models `parts.join(sep)` from JavaScript. -/
def jsJoin (sep : Char) (parts : List String) : String :=
  ⟨joinWithChar sep (parts.map String.data)⟩

/-- `startsWithCore p s` is true iff `p` is a prefix of `s`
(model of JavaScript `String.prototype.startsWith`). -/
def startsWithCore : List Char → List Char → Bool
  | [], _ => true
  | _ :: _, [] => false
  | a :: as, b :: bs => a = b && startsWithCore as bs

/-- `jsStartsWith s p` models `s.startsWith(p)` from JavaScript. -/
def jsStartsWith (s pat : String) : Bool := startsWithCore pat.data s.data

/-- `jsIncludes s p` models `s.includes(p)` from JavaScript: `p` occurs as a
contiguous substring of `s`. -/
def jsIncludes (s pat : String) : Bool :=
  (List.range (s.length + 1)).any fun i => startsWithCore pat.data (s.data.drop i)

/-! ## JavaScript coercions on `JsValue` -/

mutual

/-- Model of the JavaScript `String(v)` conversion, as used by the
dependency extractor.  Integers, booleans, `null`, `undefined` and strings are
rendered exactly as in JavaScript; arrays render as their comma-joined
elements (with `null`/`undefined` elements rendered empty) and plain objects
render as `"[object Object]"`. -/
def jsToString : JsValue → String
  | .undef => "undefined"
  | .null => "null"
  | .bool b => if b then "true" else "false"
  | .num n => toString n
  | .str s => s
  | .arr l => jsJoin ',' (jsToStringElems l)
  | .obj _ => "[object Object]"

/-- Elementwise rendering of array elements for `jsToString`
(`null` and `undefined` render as the empty string inside arrays). -/
def jsToStringElems : JsList → List String
  | .nil => []
  | .cons h t =>
    (match h with
     | .undef => ""
     | .null => ""
     | v => jsToString v) :: jsToStringElems t

end

/-- JavaScript truthiness of a value. -/
def jsTruthy : JsValue → Bool
  | .undef => false
  | .null => false
  | .bool b => b
  | .num n => n != 0
  | .str s => s != ""
  | .arr _ => true
  | .obj _ => true

/-- Model of JavaScript strict equality `===`.  Primitives compare
structurally; two array or object values compare by reference in JavaScript,
and since the evaluator always compares a freshly-read record field against a
deserialized filter constant, distinct heap objects, reference equality is
modelled as `false` whenever either side is an array or object. -/
def jsStrictEq : JsValue → JsValue → Bool
  | .undef, .undef => true
  | .null, .null => true
  | .bool a, .bool b => a == b
  | .num a, .num b => a == b
  | .str a, .str b => a == b
  | _, _ => false

/-! ## Dependency keys (`dependency-extractor.ts`)

`QueryDependency`, `createDependencyKey` and `parseDependencyKey` are direct
translations of the identically-named TypeScript declarations. -/

/-- Dependency information extracted from a query (`types.ts`). -/
structure QueryDependency where
  tableName : String
  fieldName : String
  fieldValue : String
  indexName : Option String := none
deriving DecidableEq, Repr

/-- Create a dependency key for the inverted index.
Format: `"TableName#FieldName#FieldValue"`. -/
def createDependencyKey (dependency : QueryDependency) : String :=
  dependency.tableName ++ "#" ++ dependency.fieldName ++ "#" ++ dependency.fieldValue

/-- Parse a dependency key back into its components: split on `'#'`, take the
first two segments as table and field names, and re-join the remainder as the
field value (handling values that contain `'#'`). -/
def parseDependencyKey (key : String) : Option QueryDependency :=
  let parts := jsSplit '#' key
  if parts.length < 3 then none
  else some
    { tableName := parts.getD 0 ""
      fieldName := parts.getD 1 ""
      fieldValue := jsJoin '#' (parts.drop 2)
      indexName := none }

theorem strMkData (s : String) : String.mk s.data = s := rfl

theorem strDataAppend (a b : String) : (a ++ b).data = a.data ++ b.data := rfl

theorem splitOnCharCore_ne_nil (sep : Char) (l : List Char) :
    splitOnCharCore sep l ≠ [] := by
  induction l with
  | nil => simp [splitOnCharCore]
  | cons c cs ih =>
    simp only [splitOnCharCore]
    cases h : splitOnCharCore sep cs with
    | nil => simp
    | cons seg rest =>
      by_cases hc : c = sep <;> simp [hc]

theorem joinWithChar_splitOnCharCore (sep : Char) (l : List Char) :
    joinWithChar sep (splitOnCharCore sep l) = l := by
  induction l with
  | nil => rfl
  | cons c cs ih =>
    simp only [splitOnCharCore]
    cases h : splitOnCharCore sep cs with
    | nil => exact absurd h (splitOnCharCore_ne_nil sep cs)
    | cons seg rest =>
      rw [h] at ih
      by_cases hc : c = sep
      · subst hc
        simpa [joinWithChar] using ih
      · simp only [if_neg hc]
        cases rest with
        | nil => simpa [joinWithChar] using ih
        | cons r rs => simpa [joinWithChar] using ih

theorem splitOnCharCore_append (sep : Char) (a r : List Char) (ha : sep ∉ a) :
    splitOnCharCore sep (a ++ sep :: r) = a :: splitOnCharCore sep r := by
  induction a with
  | nil =>
    simp only [List.nil_append, splitOnCharCore]
    cases h : splitOnCharCore sep r with
    | nil => exact absurd h (splitOnCharCore_ne_nil sep r)
    | cons seg rest => simp
  | cons c cs ih =>
    have hc : c ≠ sep := fun h => ha (h ▸ List.mem_cons_self c cs)
    have hcs : sep ∉ cs := fun h => ha (List.mem_cons_of_mem c h)
    have ih' := ih hcs
    simp only [List.cons_append, splitOnCharCore, List.append_eq] at ih' ⊢
    rw [ih']
    simp [hc]

theorem strDataMk (l : List Char) : (String.mk l).data = l := rfl

theorem mapDataMapMk (L : List (List Char)) :
    (L.map String.mk).map String.data = L := by
  induction L with
  | nil => rfl
  | cons a as ih => simp [ih, strDataMk]

/-- C1 (amended form): the `#`-join/split encoding round-trips as long as the
table and field names themselves contain no `'#'` and no index name is
attached; the field value may contain `'#'` freely. -/
theorem parseDependencyKey_createDependencyKey (d : QueryDependency)
    (ht : '#' ∉ d.tableName.data) (hf : '#' ∉ d.fieldName.data)
    (hi : d.indexName = none) :
    parseDependencyKey (createDependencyKey d) = some d := by
  obtain ⟨t, f, v, i⟩ := d
  simp only at ht hf
  have hi' : i = none := hi
  subst hi'
  have hdata : (createDependencyKey ⟨t, f, v, none⟩).data
      = t.data ++ '#' :: (f.data ++ '#' :: v.data) := by
    simp [createDependencyKey, strDataAppend]
  have hne := splitOnCharCore_ne_nil '#' v.data
  cases hv : splitOnCharCore '#' v.data with
  | nil => exact absurd hv hne
  | cons s rest =>
    have hparts : jsSplit '#' (createDependencyKey ⟨t, f, v, none⟩)
        = t :: f :: String.mk s :: rest.map String.mk := by
      simp only [jsSplit, hdata, splitOnCharCore_append '#' _ _ ht,
        splitOnCharCore_append '#' _ _ hf, hv, List.map_cons, strMkData]
    have hjoin : jsJoin '#' (String.mk s :: rest.map String.mk) = v := by
      have h1 : (String.mk s :: rest.map String.mk).map String.data = s :: rest := by
        simp only [List.map_cons, strDataMk, mapDataMapMk]
      have h2 := joinWithChar_splitOnCharCore '#' v.data
      rw [hv] at h2
      simp only [jsJoin, h1, h2, strMkData]
    simp only [parseDependencyKey, hparts, List.length_cons]
    rw [if_neg (by omega)]
    simp only [List.getD_cons_zero, List.getD_cons_succ, List.drop_succ_cons,
      List.drop_zero, hjoin]

/-- C1 witness: a concrete round trip with a `'#'` inside the field value. -/
theorem parseDependencyKey_createDependencyKey_witness :
    parseDependencyKey (createDependencyKey ⟨"Todo", "taskListId", "L#1", none⟩)
      = some ⟨"Todo", "taskListId", "L#1", none⟩ :=
  parseDependencyKey_createDependencyKey _ (by decide) (by decide) rfl

/-- C1 counterexample: when the table name itself contains `'#'`, decoding
reads the wrong segments, so `parseDependencyKey ∘ createDependencyKey` is not
the identity on all of `QueryDependency`. -/
theorem parseDependencyKey_createDependencyKey_counterexample :
    parseDependencyKey (createDependencyKey ⟨"a#b", "f", "v", none⟩)
      ≠ some ⟨"a#b", "f", "v", none⟩ := by decide

/-- Shallow structural induction for `JsFields` (no descent into values). -/
theorem JsFields.inductionOn {P : JsFields → Prop} (item : JsFields)
    (hnil : P .nil) (hcons : ∀ k v t, P t → P (.cons k v t)) : P item :=
  match item with
  | .nil => hnil
  | .cons k v t => hcons k v t (inductionOn t hnil hcons)

/-- Shallow structural induction for `JsList` (no descent into elements). -/
theorem JsList.inductionOnList {P : JsList → Prop} (l : JsList)
    (hnil : P .nil) (hcons : ∀ v t, P t → P (.cons v t)) : P l :=
  match l with
  | .nil => hnil
  | .cons v t => hcons v t (inductionOnList t hnil hcons)

/-! ## Affected keys for a stream record (`extractAffectedKeys`) -/

/-- Extract affected dependency keys from a stream record's image: for every
field with a value other than `null`/`undefined`, emit the exact-match key,
and for string values additionally one prefix key per prefix length 1..L. -/
def extractAffectedKeys (tableName : String) : JsFields → List String
  | .nil => []
  | .cons fieldName fieldValue t =>
    (if fieldValue ≠ JsValue.null ∧ fieldValue ≠ JsValue.undef then
      (tableName ++ "#" ++ fieldName ++ "#" ++ jsToString fieldValue)
        :: (match fieldValue with
            | .str s => (List.range s.length).map fun i =>
                tableName ++ "#" ++ fieldName ++ "#prefix:" ++ s.take (i + 1)
            | _ => [])
     else [])
      ++ extractAffectedKeys tableName t

/-- C5: `extractAffectedKeys table item` contains a key iff it is the
exact-match key of some defined field of the item, or a prefix key
`table#F#prefix:p` for a nonempty prefix `p` of a string-valued field — and
no other keys occur. -/
theorem extractAffectedKeys_mem (tableName key : String) (item : JsFields) :
    key ∈ extractAffectedKeys tableName item ↔
      ∃ f v, (f, v) ∈ item.toList ∧ v ≠ JsValue.null ∧ v ≠ JsValue.undef ∧
        (key = tableName ++ "#" ++ f ++ "#" ++ jsToString v ∨
         ∃ s i, v = JsValue.str s ∧ 1 ≤ i ∧ i ≤ s.length ∧
           key = tableName ++ "#" ++ f ++ "#prefix:" ++ s.take i) := by
  induction item using JsFields.inductionOn with
  | hnil => simp [extractAffectedKeys, JsFields.toList]
  | hcons f v t ih =>
    simp only [extractAffectedKeys, JsFields.toList, List.mem_append, ih]
    by_cases hv : v ≠ JsValue.null ∧ v ≠ JsValue.undef
    · rw [if_pos hv]
      simp only [List.mem_cons]
      constructor
      · rintro ((hk | hk) | hk)
        · exact ⟨f, v, Or.inl rfl, hv.1, hv.2, Or.inl hk⟩
        · match v, hk with
          | JsValue.str s, hk =>
            simp only [List.mem_map, List.mem_range] at hk
            obtain ⟨i, hi, hkey⟩ := hk
            exact ⟨f, JsValue.str s, Or.inl rfl, hv.1, hv.2,
              Or.inr ⟨s, i + 1, rfl, by omega, by omega, hkey.symm⟩⟩
        · obtain ⟨f', v', hmem, h1, h2, h3⟩ := hk
          exact ⟨f', v', Or.inr hmem, h1, h2, h3⟩
      · rintro ⟨f', v', (heq | hmem), h1, h2, (h3 | ⟨s, i, hs, hi1, hi2, h3⟩)⟩
        · injection heq with hf hv'
          subst hf; subst hv'
          exact Or.inl (Or.inl h3)
        · injection heq with hf hv'
          subst hf; subst hv'; subst hs
          refine Or.inl (Or.inr ?_)
          refine List.mem_map.mpr ⟨i - 1, List.mem_range.mpr (by omega), ?_⟩
          have h4 : i - 1 + 1 = i := by omega
          simp only [h4]
          exact h3.symm
        · exact Or.inr ⟨f', v', hmem, h1, h2, Or.inl h3⟩
        · exact Or.inr ⟨f', v', hmem, h1, h2, Or.inr ⟨s, i, hs, hi1, hi2, h3⟩⟩
    · rw [if_neg hv]
      constructor
      · rintro (hk | ⟨f', v', hmem, h1, h2, h3⟩)
        · exact absurd hk (List.not_mem_nil key)
        · exact ⟨f', v', List.mem_cons_of_mem _ hmem, h1, h2, h3⟩
      · rintro ⟨f', v', hmem, h1, h2, h3⟩
        rcases List.mem_cons.mp hmem with heq | hmem'
        · injection heq with hf hv'
          subst hv'
          exact absurd ⟨h1, h2⟩ hv
        · exact Or.inr ⟨f', v', hmem', h1, h2, h3⟩

/-! ## Filter expressions (`core/types.ts`, `query-builder.ts`)

`FilterCondition` is the serializable predicate-tree node: a tagged variant
with `type`, `operator`, optional `field`, optional `value`/`value2` and
optional child `conditions`.  Since persisted filters are deserialized JSON,
the tag and operator are arbitrary strings at runtime; absent members are
modelled by `Option`/`JsValue.undef`, and the absent-vs-present distinction of
the `conditions` array is modelled by `FCConds`. -/

mutual

inductive FilterCondition where
  | mk (ctype : String) (operator : String) (field : Option String)
       (value : JsValue) (value2 : JsValue) (conditions : FCConds)
deriving DecidableEq, Repr

inductive FCConds where
  | undef
  | arr (l : FCList)
deriving DecidableEq, Repr

inductive FCList where
  | nil
  | cons (head : FilterCondition) (tail : FCList)
deriving DecidableEq, Repr

end

def FilterCondition.ctype : FilterCondition → String
  | .mk t _ _ _ _ _ => t

def FilterCondition.operator : FilterCondition → String
  | .mk _ o _ _ _ _ => o

def FilterCondition.field : FilterCondition → Option String
  | .mk _ _ f _ _ _ => f

def FilterCondition.value : FilterCondition → JsValue
  | .mk _ _ _ v _ _ => v

def FilterCondition.value2 : FilterCondition → JsValue
  | .mk _ _ _ _ v2 _ => v2

def FilterCondition.conditions : FilterCondition → FCConds
  | .mk _ _ _ _ _ c => c

/-- Convert an `FCList` to an ordinary Lean list (for specifications). -/
def FCList.toList : FCList → List FilterCondition
  | .nil => []
  | .cons c t => c :: t.toList

/-- Shallow structural induction for `FCList`. -/
theorem FCList.inductionOnFC {P : FCList → Prop} (l : FCList)
    (hnil : P .nil) (hcons : ∀ c t, P t → P (.cons c t)) : P l :=
  match l with
  | .nil => hnil
  | .cons c t => hcons c t (inductionOnFC t hnil hcons)

/-- `createCondition` from `query-builder.ts`: builds a node with no child
conditions. -/
def createCondition (ctype operator : String) (field : Option String)
    (value value2 : JsValue) : FilterCondition :=
  (.mk ctype operator field value value2 .undef)

/-! `FilterBuilderImpl` from `query-builder.ts`. -/

namespace FilterBuilder

def eq (field : String) (value : JsValue) : FilterCondition :=
  createCondition "comparison" "=" (some field) value .undef

def ne (field : String) (value : JsValue) : FilterCondition :=
  createCondition "comparison" "<>" (some field) value .undef

def gt (field : String) (value : JsValue) : FilterCondition :=
  createCondition "comparison" ">" (some field) value .undef

def gte (field : String) (value : JsValue) : FilterCondition :=
  createCondition "comparison" ">=" (some field) value .undef

def lt (field : String) (value : JsValue) : FilterCondition :=
  createCondition "comparison" "<" (some field) value .undef

def lte (field : String) (value : JsValue) : FilterCondition :=
  (createCondition "comparison" "<=" (some field) value .undef)

/-- `between` builds a `'function'`-typed node with operator `'BETWEEN'`. -/
def between (field : String) (lower upper : JsValue) : FilterCondition :=
  createCondition "function" "BETWEEN" (some field) lower upper

def beginsWith (field : String) (pat : String) : FilterCondition :=
  createCondition "function" "begins_with" (some field) (.str pat) .undef

def contains (field : String) (substring : String) : FilterCondition :=
  createCondition "function" "contains" (some field) (.str substring) .undef

def and (conditions : FCList) : FilterCondition :=
  .mk "logical" "AND" none .undef .undef (.arr conditions)

def or (conditions : FCList) : FilterCondition :=
  .mk "logical" "OR" none .undef .undef (.arr conditions)

def not (condition : FilterCondition) : FilterCondition :=
  .mk "logical" "NOT" none .undef .undef (.arr (.cons condition .nil))

end FilterBuilder

/-! ## Operator normalization (`operationToQueryMetadata`) -/

/-- Comparison-operator normalization map (`'=' → 'eq'` etc., falling back to
the original operator). -/
def normalizeComparisonOp (o : String) : String :=
  if o = "=" then "eq"
  else if o = "<>" then "ne"
  else if o = ">" then "gt"
  else if o = ">=" then "gte"
  else if o = "<" then "lt"
  else if o = "<=" then "lte"
  else o

/-- Function-operator normalization map (`'begins_with' → 'beginsWith'`,
`'BETWEEN' → 'between'`). -/
def normalizeFunctionOp (o : String) : String :=
  if o = "begins_with" then "beginsWith"
  else if o = "BETWEEN" then "between"
  else o

/-- Logical-operator normalization map (`'AND' → 'and'` etc.). -/
def normalizeLogicalOp (o : String) : String :=
  if o = "AND" then "and"
  else if o = "OR" then "or"
  else if o = "NOT" then "not"
  else o

mutual

/-- `normalizeFilter` from `operationToQueryMetadata`: rewrites operators to
the spelling the filter evaluator expects, keeping the node type unchanged and
recursing into the children of logical nodes. -/
def normalizeFilter : FilterCondition → FilterCondition
  | .mk t o f v v2 conds =>
    if t = "comparison" then .mk t (normalizeComparisonOp o) f v v2 conds
    else if t = "function" then .mk t (normalizeFunctionOp o) f v v2 conds
    else if t = "logical" then
      match conds with
      | .arr cs => .mk t (normalizeLogicalOp o) f v v2 (.arr (normalizeFilters cs))
      | .undef => .mk t o f v v2 conds
    else .mk t o f v v2 conds

/-- `normalizeFilters`: elementwise `normalizeFilter`. -/
def normalizeFilters : FCList → FCList
  | .nil => .nil
  | .cons c cs => .cons (normalizeFilter c) (normalizeFilters cs)

end

/-! ## Filter evaluator (`filter-evaluator.ts`) -/

/-- First-match association lookup on a JavaScript object
(absent property reads as `undefined`). -/
def lookupJsField : JsFields → String → JsValue
  | .nil, _ => .undef
  | .cons k v t, key => if k = key then v else lookupJsField t key

/-- JavaScript array indexing with `undefined` out of range. -/
def JsList.getD : JsList → Nat → JsValue
  | .nil, _ => .undef
  | .cons h _, 0 => h
  | .cons _ t, n + 1 => t.getD n

/-- Walk a dotted path through nested values (`getFieldValue`'s loop):
`null`/`undefined`/non-objects yield `undefined`. -/
def walkField : JsValue → List String → JsValue
  | v, [] => v
  | .obj fs, p :: ps => walkField (lookupJsField fs p) ps
  | .arr xs, p :: ps =>
    walkField (match p.toNat? with
               | some i => xs.getD i
               | none => .undef) ps
  | _, _ :: _ => (.undef)

/-- `getFieldValue` from `filter-evaluator.ts`: split the field on `'.'` and
walk the record. -/
def getFieldValue (record : JsFields) (field : String) : JsValue :=
  walkField (.obj record) (jsSplit '.' field)

/-- Ternary comparison on strings (locale-independent model of
`localeCompare`). -/
def strCompare (a b : String) : Int :=
  if strLtB a b then -1 else if strLtB b a then 1 else 0

/-- `compareValues` from `filter-evaluator.ts`: `null`/`undefined` sort before
any defined value, numbers by subtraction, strings by `localeCompare`,
booleans with `false < true`, anything else by string conversion. -/
def compareValues (a b : JsValue) : Int :=
  match a, b with
  | .null, .null => 0
  | .null, .undef => 0
  | .undef, .null => 0
  | .undef, .undef => 0
  | .null, _ => -1
  | .undef, _ => -1
  | _, .null => 1
  | _, .undef => 1
  | .num x, .num y => x - y
  | .str x, .str y => strCompare x y
  | .bool x, .bool y => if x = y then 0 else if x then 1 else -1
  | x, y => strCompare (jsToString x) (jsToString y)

/-- `evaluateComparison`: `eq`/`ne` use strict equality, the order operators
use `compareValues`, `between` is inclusive on both bounds; a missing field or
operator, or an unknown operator, yields `false`. -/
def evaluateComparison (filter : FilterCondition) (record : JsFields) : Bool :=
  match filter with
  | .mk _ operator field value value2 _ =>
    match field with
    | none => false
    | some f =>
      if f = "" ∨ operator = "" then false
      else
        let fieldValue := getFieldValue record f
        if operator = "eq" then jsStrictEq fieldValue value
        else if operator = "ne" then !jsStrictEq fieldValue value
        else if operator = "gt" then decide (compareValues fieldValue value > 0)
        else if operator = "gte" then decide (compareValues fieldValue value ≥ 0)
        else if operator = "lt" then decide (compareValues fieldValue value < 0)
        else if operator = "lte" then decide (compareValues fieldValue value ≤ 0)
        else if operator = "between" then
          decide (compareValues fieldValue value ≥ 0) &&
            decide (compareValues fieldValue value2 ≤ 0)
        else false

/-- `evaluateFunction`: `beginsWith`/`contains` require both the field value
and the constant to be strings, else `false`; unknown operators yield
`false`. -/
def evaluateFunction (filter : FilterCondition) (record : JsFields) : Bool :=
  match filter with
  | .mk _ operator field value _ _ =>
    match field with
    | none => false
    | some f =>
      if f = "" ∨ operator = "" then false
      else
        let fieldValue := getFieldValue record f
        if operator = "beginsWith" then
          match fieldValue, value with
          | .str s, .str v => jsStartsWith s v
          | _, _ => false
        else if operator = "contains" then
          match fieldValue, value with
          | .str s, .str v => jsIncludes s v
          | _, _ => false
        else false

mutual

/-- `evaluateFilter`: dispatch on the node type; unknown types evaluate to
`false`.  The function is total by construction — the JavaScript original
likewise returns on every path and never throws. -/
def evaluateFilter : FilterCondition → JsFields → Bool
  | filter@(.mk t _ _ _ _ conds), record =>
    if t = "comparison" then evaluateComparison filter record
    else if t = "logical" then evaluateLogicalCore filter.operator conds record
    else if t = "function" then evaluateFunction filter record
    else false

/-- Body of `evaluateLogical`, taking the operator and child conditions apart
(missing conditions or operator yield `false`; `not` applies to the first
child only; unknown operators yield `false`). -/
def evaluateLogicalCore : String → FCConds → JsFields → Bool
  | _, .undef, _ => false
  | operator, .arr conditions, record =>
    if operator = "" then false
    else if operator = "and" then evaluateAll conditions record
    else if operator = "or" then evaluateAny conditions record
    else if operator = "not" then
      match conditions with
      | .nil => false
      | .cons c _ => !evaluateFilter c record
    else false

/-- `conditions.every((c) => evaluateFilter(c, record))`. -/
def evaluateAll : FCList → JsFields → Bool
  | .nil, _ => true
  | .cons c cs, record => evaluateFilter c record && evaluateAll cs record

/-- `conditions.some((c) => evaluateFilter(c, record))`. -/
def evaluateAny : FCList → JsFields → Bool
  | .nil, _ => false
  | .cons c cs, record => evaluateFilter c record || evaluateAny cs record

end

/-- `evaluateLogical` from `filter-evaluator.ts`. -/
def evaluateLogical (filter : FilterCondition) (record : JsFields) : Bool :=
  match filter with
  | .mk _ o _ _ _ conds => evaluateLogicalCore o conds record

/-- `evaluateFilters`: top-level conditions are ANDed (empty list matches). -/
def evaluateFilters (filters : List FilterCondition) (record : JsFields) : Bool :=
  filters.all fun f => evaluateFilter f record

/-- Whether a value is a JavaScript string. -/
def JsValue.isStr : JsValue → Bool
  | .str _ => true
  | _ => false

/-- C2: the `between` filter built by `FilterBuilderImpl.between` is a
`'function'`-typed node, and `operationToQueryMetadata` normalizes its
operator to `'between'` while keeping the `'function'` type — but
`evaluateFunction` only knows `beginsWith`/`contains`, so every such filter
evaluates to `false` on every record.  The inclusive-bounds implementation
sits in `evaluateComparison` and is reachable only for `'comparison'`-typed
nodes, which the builder never produces for `between`: the code contradicts
the spec's (and its own comments') inclusive-between semantics. -/
theorem evaluateFilter_between_bug :
    (∀ (f : String) (lo hi : JsValue) (record : JsFields),
        evaluateFilter (normalizeFilter (FilterBuilder.between f lo hi)) record = false) ∧
    evaluateComparison
        (.mk "comparison" "between" (some "x") (.num 1) (.num 10) .undef)
        (.cons "x" (.num 5) .nil) = true := by
  constructor
  · intro f lo hi record
    simp [FilterBuilder.between, createCondition, normalizeFilter,
      normalizeFunctionOp, evaluateFilter, evaluateFunction,
      FilterCondition.operator]
  · rfl

/-- C7: the filter evaluator is total (it is a Lean function) and degrades to
`false` on malformed input: unknown node types, unknown comparison / logical /
function operators and missing child conditions all evaluate to `false`, and
`beginsWith`/`contains` evaluate to `false` whenever the field value or the
comparison constant is not a string. -/
theorem evaluateFilter_defaults :
    (∀ (t o : String) (f : Option String) (v v2 : JsValue) (cs : FCConds)
        (record : JsFields),
        t ≠ "comparison" → t ≠ "logical" → t ≠ "function" →
        evaluateFilter (.mk t o f v v2 cs) record = false) ∧
    (∀ (o : String) (f : Option String) (v v2 : JsValue) (cs : FCConds)
        (record : JsFields),
        o ≠ "eq" → o ≠ "ne" → o ≠ "gt" → o ≠ "gte" → o ≠ "lt" → o ≠ "lte" →
        o ≠ "between" →
        evaluateFilter (.mk "comparison" o f v v2 cs) record = false) ∧
    (∀ (o : String) (f : Option String) (v v2 : JsValue) (cs : FCConds)
        (record : JsFields),
        o ≠ "beginsWith" → o ≠ "contains" →
        evaluateFilter (.mk "function" o f v v2 cs) record = false) ∧
    (∀ (o : String) (f : Option String) (v v2 : JsValue) (record : JsFields),
        evaluateFilter (.mk "logical" o f v v2 .undef) record = false) ∧
    (∀ (o : String) (f : Option String) (v v2 : JsValue) (cs : FCList)
        (record : JsFields),
        o ≠ "and" → o ≠ "or" → o ≠ "not" →
        evaluateFilter (.mk "logical" o f v v2 (.arr cs)) record = false) ∧
    (∀ (fname : String) (v v2 : JsValue) (cs : FCConds) (record : JsFields),
        (getFieldValue record fname).isStr = false ∨ v.isStr = false →
        evaluateFilter (.mk "function" "beginsWith" (some fname) v v2 cs) record
          = false) ∧
    (∀ (fname : String) (v v2 : JsValue) (cs : FCConds) (record : JsFields),
        (getFieldValue record fname).isStr = false ∨ v.isStr = false →
        evaluateFilter (.mk "function" "contains" (some fname) v v2 cs) record
          = false) := by
  refine ⟨?_, ?_, ?_, ?_, ?_, ?_, ?_⟩
  · intro t o f v v2 cs record h1 h2 h3
    simp [evaluateFilter, h1, h2, h3]
  · intro o f v v2 cs record h1 h2 h3 h4 h5 h6 h7
    cases f with
    | none => simp [evaluateFilter, evaluateComparison]
    | some s => simp [evaluateFilter, evaluateComparison, h1, h2, h3, h4, h5, h6, h7]
  · intro o f v v2 cs record h1 h2
    cases f with
    | none => simp [evaluateFilter, evaluateFunction]
    | some s => simp [evaluateFilter, evaluateFunction, h1, h2]
  · intro o f v v2 record
    simp [evaluateFilter, FilterCondition.operator, evaluateLogicalCore]
  · intro o f v v2 cs record h1 h2 h3
    have hrw : evaluateFilter (.mk "logical" o f v v2 (.arr cs)) record
        = evaluateLogicalCore o (.arr cs) record := rfl
    rw [hrw]
    cases cs with
    | nil =>
      have h : evaluateLogicalCore o (.arr .nil) record
          = (if o = "" then false
             else if o = "and" then evaluateAll .nil record
             else if o = "or" then evaluateAny .nil record
             else if o = "not" then false
             else false) := rfl
      rw [h]
      simp [h1, h2, h3]
    | cons c cs =>
      have h : evaluateLogicalCore o (.arr (.cons c cs)) record
          = (if o = "" then false
             else if o = "and" then evaluateAll (.cons c cs) record
             else if o = "or" then evaluateAny (.cons c cs) record
             else if o = "not" then !evaluateFilter c record
             else false) := rfl
      rw [h]
      simp [h1, h2, h3]
  · intro fname v v2 cs record h
    cases hfv : getFieldValue record fname <;> cases v <;>
      simp_all [evaluateFilter, evaluateFunction, JsValue.isStr]
  · intro fname v v2 cs record h
    cases hfv : getFieldValue record fname <;> cases v <;>
      simp_all [evaluateFilter, evaluateFunction, JsValue.isStr]

/-- C7 witness: the defaults theorem applied at concrete malformed filters. -/
theorem evaluateFilter_defaults_witness :
    evaluateFilter (.mk "mystery" "eq" (some "x") (.num 1) .undef .undef) .nil
        = false ∧
    evaluateFilter (.mk "comparison" "like" (some "x") (.num 1) .undef .undef) .nil
        = false ∧
    evaluateFilter (.mk "function" "between" (some "x") (.num 1) (.num 9) .undef) .nil
        = false ∧
    evaluateFilter (.mk "logical" "and" none .undef .undef .undef) .nil = false ∧
    evaluateFilter (.mk "logical" "xor" none .undef .undef (.arr .nil)) .nil
        = false ∧
    evaluateFilter (.mk "function" "beginsWith" (some "x") (.num 5) .undef .undef)
        (.cons "x" (.str "abc") .nil) = false ∧
    evaluateFilter (.mk "function" "contains" (some "x") (.str "a") .undef .undef)
        (.cons "x" (.num 3) .nil) = false :=
  ⟨evaluateFilter_defaults.1 "mystery" "eq" (some "x") (.num 1) .undef .undef .nil
      (by decide) (by decide) (by decide),
   evaluateFilter_defaults.2.1 "like" (some "x") (.num 1) .undef .undef .nil
      (by decide) (by decide) (by decide) (by decide) (by decide) (by decide)
      (by decide),
   evaluateFilter_defaults.2.2.1 "between" (some "x") (.num 1) (.num 9) .undef .nil
      (by decide) (by decide),
   evaluateFilter_defaults.2.2.2.1 "and" none .undef .undef .nil,
   evaluateFilter_defaults.2.2.2.2.1 "xor" none .undef .undef .nil .nil
      (by decide) (by decide) (by decide),
   evaluateFilter_defaults.2.2.2.2.2.1 "x" (.num 5) .undef .undef
      (.cons "x" (.str "abc") .nil) (Or.inr (by decide)),
   evaluateFilter_defaults.2.2.2.2.2.2 "x" (.str "a") .undef .undef
      (.cons "x" (.num 3) .nil) (Or.inl (by decide))⟩

/-! ## Tracked operations and query metadata (`types.ts`, `core/types.ts`) -/

/-- `TrackedQueryOperation` from `types.ts`. -/
structure TrackedQueryOperation where
  tableName : String
  filters : List FilterCondition
  indexName : Option String := none
  pkField : String := ""
  skField : Option String := none
  sortField : Option String := none
  sortOrder : Option String := none
  limit : Option Int := none
deriving DecidableEq, Repr

/-- `QueryMetadata` from `core/types.ts`. -/
structure QueryMetadata where
  tableName : String
  indexName : Option String := none
  filterConditions : List FilterCondition
  sortField : Option String := none
  sortOrder : Option String := none
  limit : Option Int := none
deriving DecidableEq, Repr

/-- `operationToQueryMetadata`: normalize the filter operators and repackage
the operation for storage. -/
def operationToQueryMetadata (operation : TrackedQueryOperation) : QueryMetadata :=
  { tableName := operation.tableName
    indexName := operation.indexName
    filterConditions := operation.filters.map normalizeFilter
    sortField := operation.sortField
    sortOrder := operation.sortOrder
    limit := operation.limit }

/-! ## Dependency extraction (`extractFromCondition` / `extractDependencies`) -/

/-- JavaScript truthiness of the optional `field` member. -/
def fieldTruthy : Option String → Bool
  | none => false
  | some s => s != ""

mutual

/-- `extractFromCondition`: one dependency per `'='` comparison whose field is
truthy and whose value is not `undefined`; one (tagged `prefix:`) per
`begins_with` function node whose field and value are truthy; recursive
descent through the children of logical nodes; nothing for anything else. -/
def extractFromCondition (tableName : String) (condition : FilterCondition)
    (indexName : Option String) : List QueryDependency :=
  match condition with
  | .mk t o f v _ conds =>
    if t = "comparison" then
      if o = "=" ∧ fieldTruthy f = true ∧ v ≠ .undef then
        [⟨tableName, f.getD "", jsToString v, indexName⟩]
      else []
    else if t = "function" then
      if o = "begins_with" ∧ fieldTruthy f = true ∧ jsTruthy v = true then
        [⟨tableName, f.getD "", "prefix:" ++ jsToString v, indexName⟩]
      else []
    else if t = "logical" then
      match conds with
      | .arr cs => extractFromConditionList tableName cs indexName
      | .undef => []
    else []

/-- Loop body of the `logical` case of `extractFromCondition`. -/
def extractFromConditionList (tableName : String) (conditions : FCList)
    (indexName : Option String) : List QueryDependency :=
  match conditions with
  | .nil => []
  | .cons c cs =>
    extractFromCondition tableName c indexName
      ++ extractFromConditionList tableName cs indexName

end

/-- `extractDependencies`: union of `extractFromCondition` over the
operation's top-level filters. -/
def extractDependencies (operation : TrackedQueryOperation) : List QueryDependency :=
  operation.filters.flatMap fun f =>
    extractFromCondition operation.tableName f operation.indexName

mutual

/-- Claim C6 as written, as a definition: exactly one dependency per `'='`
comparison node and one per `begins_with` function node (value tagged
`prefix:`), found by recursive descent through logical nodes, and nothing for
any other operator.  (This mirrors the specification's words; the code's
`extractFromCondition` additionally requires truthy fields/values.) -/
def specFromCondition (tableName : String) (condition : FilterCondition)
    (indexName : Option String) : List QueryDependency :=
  match condition with
  | .mk t o f v _ conds =>
    if t = "comparison" ∧ o = "=" then
      [⟨tableName, f.getD "", jsToString v, indexName⟩]
    else if t = "function" ∧ o = "begins_with" then
      [⟨tableName, f.getD "", "prefix:" ++ jsToString v, indexName⟩]
    else if t = "logical" then
      match conds with
      | .arr cs => specFromConditionList tableName cs indexName
      | .undef => []
    else []

/-- List version of `specFromCondition`. -/
def specFromConditionList (tableName : String) (conditions : FCList)
    (indexName : Option String) : List QueryDependency :=
  match conditions with
  | .nil => []
  | .cons c cs =>
    specFromCondition tableName c indexName
      ++ specFromConditionList tableName cs indexName

end

/-- `specFromCondition` summed over an operation's filters (claim C6's
reading of `extractDependencies`). -/
def specDependencies (operation : TrackedQueryOperation) : List QueryDependency :=
  operation.filters.flatMap fun f =>
    specFromCondition operation.tableName f operation.indexName

mutual

/-- Well-formedness for dependency extraction: every `'='` comparison node in
the tree has a truthy field and a defined value, and every `begins_with`
function node has a truthy field and a truthy value. -/
def wfDepCondition : FilterCondition → Bool
  | .mk t o f v _ conds =>
    (if t = "comparison" ∧ o = "=" then fieldTruthy f && decide (v ≠ .undef)
     else true) &&
    (if t = "function" ∧ o = "begins_with" then fieldTruthy f && jsTruthy v
     else true) &&
    (match conds with
     | .arr cs => wfDepConditionList cs
     | .undef => true)

/-- List version of `wfDepCondition`. -/
def wfDepConditionList : FCList → Bool
  | .nil => true
  | .cons c cs => wfDepCondition c && wfDepConditionList cs

end

/-- Mutual induction for `FilterCondition` / `FCList`. -/
theorem FilterCondition.indOn {P : FilterCondition → Prop} {Q : FCList → Prop}
    (hund : ∀ t o f v v2, P (.mk t o f v v2 .undef))
    (harr : ∀ t o f v v2 cs, Q cs → P (.mk t o f v v2 (.arr cs)))
    (hnil : Q .nil) (hcons : ∀ c cs, P c → Q cs → Q (.cons c cs)) :
    ∀ c : FilterCondition, P c
  | .mk t o f v v2 .undef => hund t o f v v2
  | .mk t o f v v2 (.arr cs) =>
    harr t o f v v2 cs (FCList.indOn hund harr hnil hcons cs)
where
  /-- List part of the mutual induction. -/
  FCList.indOn {P : FilterCondition → Prop} {Q : FCList → Prop}
      (hund : ∀ t o f v v2, P (.mk t o f v v2 .undef))
      (harr : ∀ t o f v v2 cs, Q cs → P (.mk t o f v v2 (.arr cs)))
      (hnil : Q .nil) (hcons : ∀ c cs, P c → Q cs → Q (.cons c cs)) :
      ∀ l : FCList, Q l
    | .nil => hnil
    | .cons c cs =>
      hcons c cs (FilterCondition.indOn hund harr hnil hcons c)
        (FCList.indOn hund harr hnil hcons cs)

/-- Per-node agreement between `extractFromCondition` and the claim's
`specFromCondition` under the truthiness guards. -/
theorem extractFromCondition_eq_spec (tb : String) (ix : Option String) :
    ∀ c : FilterCondition, wfDepCondition c = true →
      extractFromCondition tb c ix = specFromCondition tb c ix := by
  refine FilterCondition.indOn
    (P := fun c => wfDepCondition c = true →
      extractFromCondition tb c ix = specFromCondition tb c ix)
    (Q := fun l => wfDepConditionList l = true →
      extractFromConditionList tb l ix = specFromConditionList tb l ix)
    ?_ ?_ ?_ ?_
  · intro t o f v v2 hwf
    by_cases ht : t = "comparison"
    · subst ht
      by_cases ho : o = "="
      · subst ho
        simp [wfDepCondition] at hwf
        simp [extractFromCondition, specFromCondition, hwf.1, hwf.2]
      · simp [extractFromCondition, specFromCondition, ho]
    · by_cases hf : t = "function"
      · subst hf
        by_cases ho : o = "begins_with"
        · subst ho
          simp [wfDepCondition] at hwf
          simp [extractFromCondition, specFromCondition, hwf.1, hwf.2]
        · simp [extractFromCondition, specFromCondition, ho]
      · by_cases hl : t = "logical"
        · subst hl
          simp [extractFromCondition, specFromCondition]
        · simp [extractFromCondition, specFromCondition, ht, hf, hl]
  · intro t o f v v2 cs ih hwf
    by_cases ht : t = "comparison"
    · subst ht
      by_cases ho : o = "="
      · subst ho
        simp [wfDepCondition] at hwf
        simp [extractFromCondition, specFromCondition, hwf.1.1, hwf.1.2]
      · simp [extractFromCondition, specFromCondition, ho]
    · by_cases hf : t = "function"
      · subst hf
        by_cases ho : o = "begins_with"
        · subst ho
          simp [wfDepCondition] at hwf
          simp [extractFromCondition, specFromCondition, hwf.1.1, hwf.1.2]
        · simp [extractFromCondition, specFromCondition, ho]
      · by_cases hl : t = "logical"
        · subst hl
          simp [wfDepCondition] at hwf
          have h3 := ih hwf
          simp [extractFromCondition, specFromCondition, h3]
        · simp [extractFromCondition, specFromCondition, ht, hf, hl]
  · intro _
    rfl
  · intro c cs hc hcs hwf
    simp only [wfDepConditionList, Bool.and_eq_true] at hwf
    simp only [extractFromConditionList, specFromConditionList, hc hwf.1, hcs hwf.2]

/-- C6 (amended form): on operations whose filter trees satisfy the code's
truthiness guards — every `'='` node carries a truthy field and a defined
value, every `begins_with` node a truthy field and a truthy value —
`extractDependencies` computes exactly the claim's recursive-descent
collection `specDependencies`.  In particular trees built only from
`ne`/`gt`/`gte`/`lt`/`lte`/`contains`/`between` nodes satisfy the guards
vacuously and yield no dependencies, since `specFromCondition` emits nothing
for them. -/
theorem extractDependencies_eq_spec (operation : TrackedQueryOperation)
    (hwf : operation.filters.all wfDepCondition = true) :
    extractDependencies operation = specDependencies operation := by
  unfold extractDependencies specDependencies
  have main : ∀ fs : List FilterCondition, fs.all wfDepCondition = true →
      (fs.flatMap fun f =>
          extractFromCondition operation.tableName f operation.indexName)
        = fs.flatMap fun f =>
            specFromCondition operation.tableName f operation.indexName := by
    intro fs hfs
    induction fs with
    | nil => rfl
    | cons c cs ih =>
      simp only [List.all_cons, Bool.and_eq_true] at hfs
      simp only [List.flatMap_cons,
        extractFromCondition_eq_spec operation.tableName operation.indexName c hfs.1,
        ih hfs.2]
  exact main operation.filters hwf

/-- C6 witness: a tree mixing an equality under a logical `and`, a `ne` node
and a `begins_with` node, where code and claim agree. -/
theorem extractDependencies_eq_spec_witness :
    extractDependencies
        { tableName := "Todo",
          filters := [FilterBuilder.and (.cons (FilterBuilder.eq "taskListId" (.str "L1"))
                        (.cons (FilterBuilder.ne "done" (.bool true)) .nil)),
                      FilterBuilder.beginsWith "title" "ab"] }
      = specDependencies
        { tableName := "Todo",
          filters := [FilterBuilder.and (.cons (FilterBuilder.eq "taskListId" (.str "L1"))
                        (.cons (FilterBuilder.ne "done" (.bool true)) .nil)),
                      FilterBuilder.beginsWith "title" "ab"] } :=
  extractDependencies_eq_spec _ (by decide)

/-- C6 counterexample: an `'='` node whose value is `undefined` and a
`begins_with` node whose value is the empty string.  The claim says one
dependency per such node (two in total); the code's truthiness guards emit
none. -/
theorem extractDependencies_counterexample :
    extractDependencies
        { tableName := "Todo",
          filters := [FilterBuilder.eq "f" .undef, FilterBuilder.beginsWith "g" ""] }
      = ([] : List QueryDependency) ∧
    specDependencies
        { tableName := "Todo",
          filters := [FilterBuilder.eq "f" .undef, FilterBuilder.beginsWith "g" ""] }
      = [⟨"Todo", "f", "undefined", none⟩, ⟨"Todo", "g", "prefix:", none⟩] := by
  exact ⟨rfl, rfl⟩

/-! ## Dependency tracker (`DependencyTracker`) -/

/-- `DependencyTracker`: the tracker's state is its list of tracked
operations, in tracking order. -/
structure DependencyTracker where
  operations : List TrackedQueryOperation := []
deriving DecidableEq, Repr

/-- `track`: append an operation. -/
def DependencyTracker.track (tracker : DependencyTracker)
    (operation : TrackedQueryOperation) : DependencyTracker :=
  { operations := tracker.operations ++ [operation] }

/-- `extractAll`: dependencies of every tracked operation, in order. -/
def DependencyTracker.extractAll (tracker : DependencyTracker) :
    List QueryDependency :=
  tracker.operations.flatMap extractDependencies

/-- `getDependencyKeys`: the inverted-index keys of **all** tracked
operations. -/
def DependencyTracker.getDependencyKeys (tracker : DependencyTracker) :
    List String :=
  tracker.extractAll.map createDependencyKey

/-- `getQueryMetadata`: the stored metadata comes from the **first** tracked
operation only. -/
def DependencyTracker.getQueryMetadata (tracker : DependencyTracker) :
    Option QueryMetadata :=
  match tracker.operations with
  | [] => none
  | op :: _ => some (operationToQueryMetadata op)

/-! ## Reactive handler (`reactive-handler.ts`), modelled as pure state
transformers over the two system tables it writes.  DynamoDB `Put`s are
modelled as appended items; the key-overwrite semantics of `Put` plays no
role in the claims below. -/

/-- A row of the queries (subscriptions) table (`QueryEntry` in
`core/types.ts`).  `lastResult` is `unknown[]` in the source; it is typed
`JsValue` here so that the list-shape invariant is a statement rather than a
typing artifact. -/
structure QueryEntry where
  pk : String
  sk : String
  connectionId : String
  subscriptionId : String
  queryMetadata : QueryMetadata
  lastResult : JsValue
  dependencies : List String
  createdAt : Int
  updatedAt : Int
  ttl : Int
deriving DecidableEq, Repr

/-- A row of the dependencies (inverted index) table. -/
structure DependencyEntry where
  pk : String
  sk : String
  connectionId : String
  subscriptionId : String
  ttl : Int
deriving DecidableEq, Repr

/-- The handler's persistent state: the queries table and the dependency
index table. -/
structure StoreState where
  queries : List QueryEntry := []
  dependencyEntries : List DependencyEntry := []
deriving DecidableEq, Repr

/-- A subscribe request. -/
structure SubscribeRequest where
  subscriptionId : String
  path : String
  input : JsValue := .undef
deriving DecidableEq, Repr

/-- Responses of the reactive handler. -/
inductive ReactiveResponse where
  | snapshot (subscriptionId : String) (data : JsValue)
  | result (data : JsValue)
  | error (message : String) (subscriptionId : Option String)
deriving DecidableEq, Repr

/-- Whether a value is a JavaScript array. -/
def JsValue.isArr : JsValue → Bool
  | .arr _ => true
  | _ => false

/-- The `QueryEntry` that `handleSubscribe` writes: metadata from the
tracker (first tracked operation, or an empty default), `lastResult` is the
procedure result if it is an array and otherwise the one-element array
`[result]`, and the dependency keys of all tracked operations. -/
def subscribeQueryEntry (connectionId : String) (request : SubscribeRequest)
    (tracker : DependencyTracker) (result : JsValue) (now ttl : Int) :
    QueryEntry :=
  { pk := connectionId
    sk := request.subscriptionId
    connectionId := connectionId
    subscriptionId := request.subscriptionId
    queryMetadata := tracker.getQueryMetadata.getD
      { tableName := "", filterConditions := [] }
    lastResult := if result.isArr then result else .arr (.cons result .nil)
    dependencies := tracker.getDependencyKeys
    createdAt := now
    updatedAt := now
    ttl := ttl }

/-- The inverted-index rows that `handleSubscribe` writes: one per dependency
key, sharing the subscription's expiry. -/
def subscribeDependencyEntries (connectionId : String)
    (request : SubscribeRequest) (tracker : DependencyTracker) (ttl : Int) :
    List DependencyEntry :=
  tracker.getDependencyKeys.map fun key =>
    { pk := key
      sk := connectionId ++ "#" ++ request.subscriptionId
      connectionId := connectionId
      subscriptionId := request.subscriptionId
      ttl := ttl }

/-- `handleSubscribe` (success path, after the resolver returned `result` with
the tracker in its final state): persist the subscription row and the index
rows, return the snapshot with the unwrapped result. -/
def handleSubscribe (connectionId : String) (request : SubscribeRequest)
    (tracker : DependencyTracker) (result : JsValue) (now ttl : Int)
    (state : StoreState) : StoreState × ReactiveResponse :=
  ({ queries := state.queries
        ++ [subscribeQueryEntry connectionId request tracker result now ttl]
     dependencyEntries := state.dependencyEntries
        ++ subscribeDependencyEntries connectionId request tracker ttl },
   .snapshot request.subscriptionId result)

/-- `handleRequest` on a subscribe request.  `contextResult` models
`config.getContext` (which may throw) and `resolverOutcome` models
`router.execute` together with the tracker state at its completion; the
`try`/`catch` around the whole body maps any failure to an error response,
and since both `Put`s happen after `router.execute` returns, a failure
persists nothing. -/
def handleRequest (connectionId : String) (request : SubscribeRequest)
    (contextResult : Except String Unit)
    (resolverOutcome : Except String (JsValue × DependencyTracker))
    (now ttl : Int) (state : StoreState) : StoreState × ReactiveResponse :=
  match contextResult with
  | .error e => (state, .error e (some request.subscriptionId))
  | .ok _ =>
    match resolverOutcome with
    | .error e => (state, .error e (some request.subscriptionId))
    | .ok (result, tracker) =>
      handleSubscribe connectionId request tracker result now ttl state

/-- `updateQueryState` from `stream-handler.ts`: overwrite the row with the
new result (always an array, `unknown[]` in the source) and a fresh
`updatedAt`, leaving everything else unchanged. -/
def updateQueryState (existing : QueryEntry) (newResult : JsList) (now : Int) :
    QueryEntry :=
  { existing with lastResult := .arr newResult, updatedAt := now }

/-- C3 (amended form): what `handleSubscribe` persists — the stored
`queryMetadata` is derived from the **first** tracked operation alone, while
the stored dependency list and the inverted-index rows are derived from
**all** tracked operations (in tracking order), not just the first. -/
theorem handleSubscribe_persists (connectionId : String)
    (request : SubscribeRequest) (op0 : TrackedQueryOperation)
    (rest : List TrackedQueryOperation) (result : JsValue) (now ttl : Int)
    (state : StoreState) :
    (handleSubscribe connectionId request ⟨op0 :: rest⟩ result now ttl state).1.queries
        = state.queries
          ++ [subscribeQueryEntry connectionId request ⟨op0 :: rest⟩ result now ttl] ∧
    (subscribeQueryEntry connectionId request ⟨op0 :: rest⟩ result now ttl).queryMetadata
        = operationToQueryMetadata op0 ∧
    (subscribeQueryEntry connectionId request ⟨op0 :: rest⟩ result now ttl).dependencies
        = ((op0 :: rest).flatMap extractDependencies).map createDependencyKey ∧
    (subscribeDependencyEntries connectionId request ⟨op0 :: rest⟩ ttl).map
          (fun e => e.pk)
        = ((op0 :: rest).flatMap extractDependencies).map createDependencyKey := by
  refine ⟨rfl, rfl, rfl, ?_⟩
  have h4 : ∀ keys : List String,
      (keys.map fun key =>
        ({ pk := key, sk := connectionId ++ "#" ++ request.subscriptionId,
           connectionId := connectionId,
           subscriptionId := request.subscriptionId,
           ttl := ttl } : DependencyEntry)).map (fun e => e.pk) = keys := by
    intro keys
    induction keys with
    | nil => rfl
    | cons k ks ih => simp_all
  exact h4 _

/-- C3 counterexample: with two tracked operations each contributing one
equality dependency, `getDependencyKeys` (what `handleSubscribe` writes to
the subscription row and the inverted index) contains the second operation's
key as well — contradicting the claim that operations after the first
contribute nothing to the persisted state. -/
theorem getDependencyKeys_counterexample :
    (DependencyTracker.mk
        [{ tableName := "A", filters := [FilterBuilder.eq "x" (.str "1")] },
         { tableName := "B", filters := [FilterBuilder.eq "y" (.str "2")] }]).getDependencyKeys
      = ["A#x#1", "B#y#2"] ∧
    (extractDependencies
        { tableName := "A", filters := [FilterBuilder.eq "x" (.str "1")] }).map
          createDependencyKey
      = ["A#x#1"] :=
  ⟨rfl, rfl⟩

/-- C8: if the procedure resolver (or context resolution) fails during a
subscribe request, `handleRequest` persists nothing — the store state is
returned unchanged, with no subscription row and no dependency-index row
written — and the response is an error carrying the subscription id. -/
theorem handleRequest_resolver_failure (connectionId : String)
    (request : SubscribeRequest) (e : String) (now ttl : Int)
    (state : StoreState) :
    handleRequest connectionId request (.ok ()) (.error e) now ttl state
        = (state, .error e (some request.subscriptionId)) ∧
    handleRequest connectionId request (.error e) (.error e) now ttl state
        = (state, .error e (some request.subscriptionId)) :=
  ⟨rfl, rfl⟩

/-- C10: every subscription row ever written has a list-valued `lastResult`:
`handleSubscribe` stores the result unchanged when it is an array and
otherwise wraps it in a one-element array, while the snapshot response
carries the unwrapped result (so for non-array results the stored
`lastResult` differs from the snapshot data); and the change processor's
`updateQueryState` only ever writes an array. -/
theorem lastResult_list_invariant :
    (∀ (connectionId : String) (request : SubscribeRequest)
        (tracker : DependencyTracker) (result : JsValue) (now ttl : Int),
        (subscribeQueryEntry connectionId request tracker result now ttl).lastResult.isArr
          = true) ∧
    (∀ (connectionId : String) (request : SubscribeRequest)
        (tracker : DependencyTracker) (result : JsValue) (now ttl : Int)
        (state : StoreState),
        (handleSubscribe connectionId request tracker result now ttl state).2
          = .snapshot request.subscriptionId result) ∧
    (∀ (connectionId : String) (request : SubscribeRequest)
        (tracker : DependencyTracker) (result : JsValue) (now ttl : Int),
        result.isArr = false →
        (subscribeQueryEntry connectionId request tracker result now ttl).lastResult
            = .arr (.cons result .nil) ∧
        (subscribeQueryEntry connectionId request tracker result now ttl).lastResult
            ≠ result) ∧
    (∀ (existing : QueryEntry) (newResult : JsList) (now : Int),
        (updateQueryState existing newResult now).lastResult = .arr newResult) := by
  refine ⟨?_, ?_, ?_, ?_⟩
  · intro c rq tr result now ttl
    cases result <;> simp [subscribeQueryEntry, JsValue.isArr]
  · intro c rq tr result now ttl state
    rfl
  · intro c rq tr result now ttl h
    refine ⟨by simp [subscribeQueryEntry, h], ?_⟩
    simp only [subscribeQueryEntry, h, Bool.false_eq_true, if_false]
    cases result <;> simp_all [JsValue.isArr]
  · intro existing newResult now
    rfl

/-! ## Client reconnection backoff (`WebSocketManager.scheduleReconnect`) -/

/-- `scheduleReconnect` from `client/types.ts` (`websocket.ts`): returns
`none` when the attempt budget is exhausted (nothing is scheduled), otherwise
the incremented attempt counter and the scheduled delay
`min(reconnectDelay * 2^(attempts-1), 30000) * (0.5 + r * 0.5)`, where
`r ∈ [0, 1)` models the `Math.random()` draw. -/
def scheduleReconnect (reconnectAttempts maxReconnectAttempts : Nat)
    (reconnectDelay r : ℚ) : Option (Nat × ℚ) :=
  if reconnectAttempts ≥ maxReconnectAttempts then none
  else
    some (reconnectAttempts + 1,
      min (reconnectDelay * 2 ^ (reconnectAttempts + 1 - 1)) 30000
        * (1 / 2 + r * (1 / 2)))

/-- C9: below the attempt cap, the scheduled delay is the capped exponential
`min(base * 2^(n-1), 30000)` times a jitter factor in `[1/2, 1]` (so it lies
between half the capped value and the capped value); once the attempt counter
reaches `maxReconnectAttempts`, nothing is scheduled. -/
theorem scheduleReconnect_spec (reconnectAttempts maxReconnectAttempts : Nat)
    (reconnectDelay r : ℚ) (hr0 : 0 ≤ r) (hr1 : r < 1)
    (hd : 0 ≤ reconnectDelay) :
    (reconnectAttempts < maxReconnectAttempts →
      ∃ jitter : ℚ, 1 / 2 ≤ jitter ∧ jitter ≤ 1 ∧
        scheduleReconnect reconnectAttempts maxReconnectAttempts reconnectDelay r
          = some (reconnectAttempts + 1,
              min (reconnectDelay * 2 ^ reconnectAttempts) 30000 * jitter) ∧
        min (reconnectDelay * 2 ^ reconnectAttempts) 30000 / 2
            ≤ min (reconnectDelay * 2 ^ reconnectAttempts) 30000 * jitter ∧
        min (reconnectDelay * 2 ^ reconnectAttempts) 30000 * jitter
            ≤ min (reconnectDelay * 2 ^ reconnectAttempts) 30000) ∧
    (maxReconnectAttempts ≤ reconnectAttempts →
      scheduleReconnect reconnectAttempts maxReconnectAttempts reconnectDelay r
        = none) := by
  have hmin : (0:ℚ) ≤ min (reconnectDelay * 2 ^ reconnectAttempts) 30000 :=
    le_min (by positivity) (by norm_num)
  constructor
  · intro h
    refine ⟨1 / 2 + r * (1 / 2), by linarith, by linarith, ?_, ?_, ?_⟩
    · unfold scheduleReconnect
      rw [if_neg (by omega)]
      simp [Nat.add_sub_cancel]
    · nlinarith [mul_nonneg hmin hr0]
    · nlinarith [mul_nonneg hmin (by linarith : (0:ℚ) ≤ 1 - (1 / 2 + r * (1 / 2)))]
  · intro h
    unfold scheduleReconnect
    rw [if_pos (by omega)]

/-- C9 witness: third attempt with base delay 1000 ms and `r = 1/2`, plus the
exhausted case at the default cap of 10 attempts. -/
theorem scheduleReconnect_spec_witness :
    (∃ jitter : ℚ, 1 / 2 ≤ jitter ∧ jitter ≤ 1 ∧
        scheduleReconnect 2 10 1000 (1 / 2)
          = some (2 + 1, min ((1000:ℚ) * 2 ^ 2) 30000 * jitter) ∧
        min ((1000:ℚ) * 2 ^ 2) 30000 / 2
            ≤ min ((1000:ℚ) * 2 ^ 2) 30000 * jitter ∧
        min ((1000:ℚ) * 2 ^ 2) 30000 * jitter ≤ min ((1000:ℚ) * 2 ^ 2) 30000) ∧
    scheduleReconnect 10 10 1000 (1 / 2) = none :=
  ⟨(scheduleReconnect_spec 2 10 1000 (1 / 2) (by norm_num) (by norm_num)
      (by norm_num)).1 (by norm_num),
   (scheduleReconnect_spec 10 10 1000 (1 / 2) (by norm_num) (by norm_num)
      (by norm_num)).2 (by norm_num)⟩

/-! ## Patch engine

Modelled from the spec: the structural diff/apply engine of the Patch Engine
(§4.6) is provided by the external `fast-json-patch` dependency, whose source
is not part of the repository; `generatePatches`/`applyPatches` below follow
the spec's description — a structural diff producing an ordered RFC
6902-style operation list sufficient to transform the old document into the
new one, and a validating apply.  Documents are `JsValue`s; object fields are
kept in canonically sorted key order (`jsWf`), matching JavaScript's
key-order-insensitive deep equality. -/

/-- One segment of an RFC 6902 path: an object key or an array index. -/
inductive Seg where
  | key (s : String)
  | idx (n : Nat)
deriving DecidableEq, Repr

/-- An RFC 6902-style patch operation (the diff emits `add`, `remove` and
`replace`). -/
inductive PatchOp where
  | add (path : List Seg) (value : JsValue)
  | remove (path : List Seg)
  | replace (path : List Seg) (value : JsValue)
deriving DecidableEq, Repr

/-- Prepend a path segment to an operation's path. -/
def PatchOp.prefixed (s : Seg) : PatchOp → PatchOp
  | .add p v => .add (s :: p) v
  | .remove p => .remove (s :: p)
  | .replace p v => .replace (s :: p) v

/-! ### List and field utilities -/

/-- Append on `JsList`. -/
def JsList.cat : JsList → JsList → JsList
  | .nil, ys => ys
  | .cons x xs, ys => .cons x (xs.cat ys)

/-- Indexing on `JsList`. -/
def JsList.idx? : JsList → Nat → Option JsValue
  | .nil, _ => none
  | .cons h _, 0 => some h
  | .cons _ t, n + 1 => t.idx? n

/-- Replace the element at an index (identity out of range). -/
def JsList.set : JsList → Nat → JsValue → JsList
  | .nil, _, _ => .nil
  | .cons _ t, 0, w => .cons w t
  | .cons h t, n + 1, w => .cons h (t.set n w)

/-- Insert before an index (callers guard `n ≤ length`). -/
def JsList.insertAt : JsList → Nat → JsValue → JsList
  | l, 0, w => .cons w l
  | .nil, _ + 1, w => .cons w .nil
  | .cons h t, n + 1, w => .cons h (t.insertAt n w)

/-- Remove the element at an index (identity out of range). -/
def JsList.removeAt : JsList → Nat → JsList
  | .nil, _ => .nil
  | .cons _ t, 0 => t
  | .cons h t, n + 1 => .cons h (t.removeAt n)

/-- First `n` elements. -/
def JsList.take : Nat → JsList → JsList
  | 0, _ => .nil
  | _ + 1, .nil => .nil
  | n + 1, .cons h t => .cons h (JsList.take n t)

/-- All but the first `n` elements. -/
def JsList.drop : Nat → JsList → JsList
  | 0, l => l
  | _ + 1, .nil => .nil
  | n + 1, .cons _ t => JsList.drop n t

/-- Append on `JsFields`. -/
def JsFields.cat : JsFields → JsFields → JsFields
  | .nil, gs => gs
  | .cons k v t, gs => .cons k v (t.cat gs)

/-- Whether a key is present. -/
def JsFields.hasKey : JsFields → String → Bool
  | .nil, _ => false
  | .cons k _ t, key => k = key || t.hasKey key

/-- First-match lookup. -/
def JsFields.lookup : JsFields → String → Option JsValue
  | .nil, _ => none
  | .cons k v t, key => if k = key then some v else t.lookup key

/-- Replace the value at a key (identity when absent). -/
def JsFields.set : JsFields → String → JsValue → JsFields
  | .nil, _, _ => .nil
  | .cons k v t, key, w =>
    if k = key then .cons k w t else .cons k v (t.set key w)

/-- Insert a key in sorted position (replace in place when present). -/
def JsFields.insert : JsFields → String → JsValue → JsFields
  | .nil, key, w => .cons key w .nil
  | .cons k v t, key, w =>
    if strLtB key k then .cons key w (.cons k v t)
    else if key = k then .cons key w t
    else .cons k v (t.insert key w)

/-- Remove a key (first occurrence). -/
def JsFields.remove : JsFields → String → JsFields
  | .nil, _ => .nil
  | .cons k v t, key => if k = key then t else .cons k v (t.remove key)

/-- `keyLtAll k fs`: `k` is strictly below every key of `fs`. -/
def keyLtAll (k : String) : JsFields → Bool
  | .nil => true
  | .cons k' _ t => strLtB k k' && keyLtAll k t

/-- Canonically sorted field list: every key strictly below all later keys. -/
def JsFields.sortedKeys : JsFields → Bool
  | .nil => true
  | .cons k _ t => keyLtAll k t && t.sortedKeys

mutual

/-- Well-formed JSON document: no `undefined`, and every object's keys are
canonically sorted (hence pairwise distinct). -/
def jsWf : JsValue → Bool
  | .undef => false
  | .null => true
  | .bool _ => true
  | .num _ => true
  | .str _ => true
  | .arr l => jsWfList l
  | .obj fs => fs.sortedKeys && jsWfFields fs

/-- Elementwise `jsWf`. -/
def jsWfList : JsList → Bool
  | .nil => true
  | .cons h t => jsWf h && jsWfList t

/-- Valuewise `jsWf`. -/
def jsWfFields : JsFields → Bool
  | .nil => true
  | .cons _ v t => jsWf v && jsWfFields t

end

/-! ### Strict string order: irreflexivity and asymmetry -/

theorem charLtB_irrefl (a : Char) : charLtB a a = false := by
  simp [charLtB]

theorem charLtB_asymm (a b : Char) (h : charLtB a b = true) :
    charLtB b a = false := by
  simp only [charLtB, decide_eq_true_eq, decide_eq_false_iff_not] at h ⊢
  omega

theorem strLtCore_irrefl (l : List Char) : strLtCore l l = false := by
  induction l with
  | nil => rfl
  | cons a as ih => simp [strLtCore, charLtB_irrefl, ih]

theorem strLtB_irrefl (s : String) : strLtB s s = false :=
  strLtCore_irrefl s.data

theorem strLtCore_asymm (l m : List Char) (h : strLtCore l m = true) :
    strLtCore m l = false := by
  induction l generalizing m with
  | nil =>
    cases m with
    | nil => simp [strLtCore] at h
    | cons b bs => simp [strLtCore]
  | cons a as ih =>
    cases m with
    | nil => simp [strLtCore] at h
    | cons b bs =>
      simp only [strLtCore] at h ⊢
      by_cases hab : charLtB a b = true
      · simp [hab, charLtB_asymm a b hab]
      · simp only [hab, if_false, Bool.not_eq_true] at h
        by_cases hba : charLtB b a = true
        · simp [hba] at h
        · simp only [Bool.not_eq_true] at hba
          simp only [hba, if_false, hab, if_false] at h ⊢
          simp [hab, hba, ih bs h]

theorem strLtB_asymm (s t : String) (h : strLtB s t = true) :
    strLtB t s = false :=
  strLtCore_asymm s.data t.data h

theorem strLtB_ne (s t : String) (h : strLtB s t = true) : s ≠ t := by
  intro he
  subst he
  rw [strLtB_irrefl] at h
  exact Bool.false_ne_true h

/-! ### Patch application (validating; `none` models a thrown validation
error: replace/remove require the referenced path to exist, add requires the
parent and, for arrays, an index at most the length) -/

/-- `replace` navigation. -/
def replaceAtPath : JsValue → List Seg → JsValue → Option JsValue
  | _, [], w => some w
  | .obj fs, .key k :: p, w =>
    (match fs.lookup k with
     | some v => (replaceAtPath v p w).map fun v1 => .obj (fs.set k v1)
     | none => none)
  | .arr xs, .idx i :: p, w =>
    (match xs.idx? i with
     | some v => (replaceAtPath v p w).map fun v1 => .arr (xs.set i v1)
     | none => none)
  | _, _ :: _, _ => none

/-- `add` navigation: at the final segment, insert into the parent. -/
def addAtPath : JsValue → List Seg → JsValue → Option JsValue
  | _, [], w => some w
  | .obj fs, [.key k], w => some (.obj (fs.insert k w))
  | .arr xs, [.idx i], w =>
    if i ≤ xs.length then some (.arr (xs.insertAt i w)) else none
  | .obj fs, .key k :: p, w =>
    (match fs.lookup k with
     | some v => (addAtPath v p w).map fun v1 => .obj (fs.set k v1)
     | none => none)
  | .arr xs, .idx i :: p, w =>
    (match xs.idx? i with
     | some v => (addAtPath v p w).map fun v1 => .arr (xs.set i v1)
     | none => none)
  | _, _ :: _, _ => none

/-- `remove` navigation: at the final segment, delete from the parent. -/
def removeAtPath : JsValue → List Seg → Option JsValue
  | _, [] => none
  | .obj fs, [.key k] =>
    if fs.hasKey k then some (.obj (fs.remove k)) else none
  | .arr xs, [.idx i] =>
    if i < xs.length then some (.arr (xs.removeAt i)) else none
  | .obj fs, .key k :: p =>
    (match fs.lookup k with
     | some v => (removeAtPath v p).map fun v1 => .obj (fs.set k v1)
     | none => none)
  | .arr xs, .idx i :: p =>
    (match xs.idx? i with
     | some v => (removeAtPath v p).map fun v1 => .arr (xs.set i v1)
     | none => none)
  | _, _ :: _ => none

/-- Apply one operation. -/
def applyOp (doc : JsValue) : PatchOp → Option JsValue
  | .add p w => addAtPath doc p w
  | .remove p => removeAtPath doc p
  | .replace p w => replaceAtPath doc p w

/-- `applyPatches`: apply each operation in order, failing on the first
invalid one. -/
def applyPatches (doc : JsValue) : List PatchOp → Option JsValue
  | [] => some doc
  | op :: ops =>
    match applyOp doc op with
    | some doc2 => applyPatches doc2 ops
    | none => none

theorem applyPatches_append (doc : JsValue) (ops1 ops2 : List PatchOp) :
    applyPatches doc (ops1 ++ ops2)
      = (applyPatches doc ops1).bind fun m => applyPatches m ops2 := by
  induction ops1 generalizing doc with
  | nil => rfl
  | cons op ops ih =>
    simp only [List.cons_append, applyPatches]
    cases applyOp doc op with
    | none => rfl
    | some d2 => simpa using ih d2

/-! ### Field-list equations -/

theorem JsFields.lookup_set_self (fs : JsFields) (k : String) (v w : JsValue)
    (h : fs.lookup k = some v) : (fs.set k w).lookup k = some w := by
  induction fs using JsFields.inductionOn with
  | hnil => simp [JsFields.lookup] at h
  | hcons k1 v1 t ih =>
    by_cases hk : k1 = k
    · subst hk
      simp [JsFields.lookup, JsFields.set]
    · simp only [JsFields.lookup, if_neg hk] at h
      simp [JsFields.set, JsFields.lookup, hk, ih h]

theorem JsFields.set_set (fs : JsFields) (k : String) (w1 w2 : JsValue) :
    (fs.set k w1).set k w2 = fs.set k w2 := by
  induction fs using JsFields.inductionOn with
  | hnil => rfl
  | hcons k1 v1 t ih =>
    by_cases hk : k1 = k
    · subst hk
      simp [JsFields.set]
    · simp [JsFields.set, hk, ih]

theorem JsFields.set_of_lookup_self (fs : JsFields) (k : String) (v : JsValue)
    (h : fs.lookup k = some v) : fs.set k v = fs := by
  induction fs using JsFields.inductionOn with
  | hnil => rfl
  | hcons k1 v1 t ih =>
    by_cases hk : k1 = k
    · subst hk
      simp only [JsFields.lookup, if_pos] at h
      rw [Option.some.injEq] at h
      simp [JsFields.set, h]
    · simp only [JsFields.lookup, if_neg hk] at h
      simp [JsFields.set, hk, ih h]

/-! ### Index equations on `JsList` -/

theorem JsList.idx?_set_self (xs : JsList) (i : Nat) (v w : JsValue)
    (h : xs.idx? i = some v) : (xs.set i w).idx? i = some w := by
  induction xs using JsList.inductionOnList generalizing i with
  | hnil => simp [JsList.idx?] at h
  | hcons x t ih =>
    cases i with
    | zero => simp [JsList.set, JsList.idx?]
    | succ n =>
      simp only [JsList.idx?] at h
      simp [JsList.set, JsList.idx?, ih n h]

theorem JsList.set_set_idx (xs : JsList) (i : Nat) (w1 w2 : JsValue) :
    (xs.set i w1).set i w2 = xs.set i w2 := by
  induction xs using JsList.inductionOnList generalizing i with
  | hnil => rfl
  | hcons x t ih =>
    cases i with
    | zero => simp [JsList.set]
    | succ n => simp [JsList.set, ih]

theorem JsList.set_of_idx_self (xs : JsList) (i : Nat) (v : JsValue)
    (h : xs.idx? i = some v) : xs.set i v = xs := by
  induction xs using JsList.inductionOnList generalizing i with
  | hnil => rfl
  | hcons x t ih =>
    cases i with
    | zero =>
      simp only [JsList.idx?, Option.some.injEq] at h
      simp [JsList.set, h]
    | succ n =>
      simp only [JsList.idx?] at h
      simp [JsList.set, ih n h]

/-! ### Frame lemmas: all operations prefixed onto one member act only on
that member -/

theorem applyOp_prefixKey (fs : JsFields) (k : String) (v : JsValue)
    (op : PatchOp) (hv : fs.lookup k = some v)
    (hadd : ∀ w, op ≠ .add [] w) (hrem : op ≠ .remove []) :
    applyOp (.obj fs) (op.prefixed (.key k))
      = (applyOp v op).map fun v1 => .obj (fs.set k v1) := by
  cases op with
  | add p w =>
    cases p with
    | nil => exact absurd rfl (hadd w)
    | cons s p1 => simp [applyOp, PatchOp.prefixed, addAtPath, hv]
  | remove p =>
    cases p with
    | nil => exact absurd rfl hrem
    | cons s p1 => simp [applyOp, PatchOp.prefixed, removeAtPath, hv]
  | replace p w =>
    cases p with
    | nil => simp [applyOp, PatchOp.prefixed, replaceAtPath, hv]
    | cons s p1 => simp [applyOp, PatchOp.prefixed, replaceAtPath, hv]

theorem applyOp_prefixIdx (xs : JsList) (i : Nat) (v : JsValue)
    (op : PatchOp) (hv : xs.idx? i = some v)
    (hadd : ∀ w, op ≠ .add [] w) (hrem : op ≠ .remove []) :
    applyOp (.arr xs) (op.prefixed (.idx i))
      = (applyOp v op).map fun v1 => .arr (xs.set i v1) := by
  cases op with
  | add p w =>
    cases p with
    | nil => exact absurd rfl (hadd w)
    | cons s p1 => simp [applyOp, PatchOp.prefixed, addAtPath, hv]
  | remove p =>
    cases p with
    | nil => exact absurd rfl hrem
    | cons s p1 => simp [applyOp, PatchOp.prefixed, removeAtPath, hv]
  | replace p w =>
    cases p with
    | nil => simp [applyOp, PatchOp.prefixed, replaceAtPath, hv]
    | cons s p1 => simp [applyOp, PatchOp.prefixed, replaceAtPath, hv]

theorem applyPatches_prefixKey (k : String) (ops : List PatchOp) :
    ∀ (fs : JsFields) (v w : JsValue),
      fs.lookup k = some v →
      (∀ p q, PatchOp.add p q ∈ ops → p ≠ []) →
      applyPatches v ops = some w →
      applyPatches (.obj fs) (ops.map (.prefixed (.key k)))
        = some (.obj (fs.set k w)) := by
  induction ops with
  | nil =>
    intro fs v w hv _ happ
    simp only [applyPatches, Option.some.injEq] at happ
    subst happ
    simp [applyPatches, JsFields.set_of_lookup_self fs k v hv]
  | cons op ops ih =>
    intro fs v w hv hadd happ
    simp only [applyPatches] at happ
    cases hop : applyOp v op with
    | none => rw [hop] at happ; exact absurd happ (by simp)
    | some v1 =>
      rw [hop] at happ
      have hadd1 : ∀ q, op ≠ .add [] q := by
        intro q he
        exact (hadd [] q (by rw [he]; exact List.mem_cons_self _ _)) rfl
      have hrem1 : op ≠ .remove [] := by
        intro he
        rw [he] at hop
        simp [applyOp, removeAtPath] at hop
      simp only [List.map_cons, applyPatches,
        applyOp_prefixKey fs k v op hv hadd1 hrem1, hop, Option.map_some]
      exact (JsFields.set_set fs k v1 w) ▸
        ih (fs.set k v1) v1 w (JsFields.lookup_set_self fs k v v1 hv)
          (fun p q hm => hadd p q (List.mem_cons_of_mem _ hm)) happ

theorem applyPatches_prefixIdx (i : Nat) (ops : List PatchOp) :
    ∀ (xs : JsList) (v w : JsValue),
      xs.idx? i = some v →
      (∀ p q, PatchOp.add p q ∈ ops → p ≠ []) →
      applyPatches v ops = some w →
      applyPatches (.arr xs) (ops.map (.prefixed (.idx i)))
        = some (.arr (xs.set i w)) := by
  induction ops with
  | nil =>
    intro xs v w hv _ happ
    simp only [applyPatches, Option.some.injEq] at happ
    subst happ
    simp [applyPatches, JsList.set_of_idx_self xs i v hv]
  | cons op ops ih =>
    intro xs v w hv hadd happ
    simp only [applyPatches] at happ
    cases hop : applyOp v op with
    | none => rw [hop] at happ; exact absurd happ (by simp)
    | some v1 =>
      rw [hop] at happ
      have hadd1 : ∀ q, op ≠ .add [] q := by
        intro q he
        exact (hadd [] q (by rw [he]; exact List.mem_cons_self _ _)) rfl
      have hrem1 : op ≠ .remove [] := by
        intro he
        rw [he] at hop
        simp [applyOp, removeAtPath] at hop
      simp only [List.map_cons, applyPatches,
        applyOp_prefixIdx xs i v op hv hadd1 hrem1, hop, Option.map_some]
      exact (JsList.set_set_idx xs i v1 w) ▸
        ih (xs.set i v1) v1 w (JsList.idx?_set_self xs i v v1 hv)
          (fun p q hm => hadd p q (List.mem_cons_of_mem _ hm)) happ

/-! ### The structural diff -/

/-- Trailing-element additions for arrays: append each extra new element at
the end (index = current length). -/
def addTail (i : Nat) : JsList → List PatchOp
  | .nil => []
  | .cons h t => .add [.idx i] h :: addTail (i + 1) t

/-- Removals of old object keys absent from the new object. -/
def removesF : JsFields → JsFields → List PatchOp
  | .nil, _ => []
  | .cons k _ t, fb =>
    (if fb.hasKey k then [] else [.remove [.key k]]) ++ removesF t fb

/-- Additions of new object keys absent from the old object, in the new
object's order. -/
def addsF : JsFields → JsFields → List PatchOp
  | _, .nil => []
  | fa, .cons k v t =>
    (if fa.hasKey k then [] else [.add [.key k] v]) ++ addsF fa t

mutual

/-- Structural diff: equal documents need no operations; objects diff
per key (removals, then recursive diffs of shared keys, then additions);
arrays diff per index (recursive diffs of shared indices, then removals of
extra old elements, then additions of extra new elements); any other change
is a whole-value `replace`. -/
def diff : JsValue → JsValue → List PatchOp
  | a, b =>
    if a = b then []
    else
      match a, b with
      | .obj fa, .obj fb => removesF fa fb ++ commonsF fa fb ++ addsF fa fb
      | .arr xa, .arr xb =>
        diffElems 0 xa xb
          ++ List.replicate (xa.length - xb.length) (.remove [.idx xb.length])
          ++ addTail xa.length (JsList.drop xa.length xb)
      | _, b2 => [.replace [] b2]

/-- Recursive diffs of the keys shared between the two objects, prefixed with
their key. -/
def commonsF : JsFields → JsFields → List PatchOp
  | .nil, _ => []
  | .cons k v t, fb =>
    (match fb.lookup k with
     | some v2 => (diff v v2).map (.prefixed (.key k))
     | none => []) ++ commonsF t fb

/-- Recursive diffs of the indices shared between the two arrays, prefixed
with their index. -/
def diffElems (i : Nat) : JsList → JsList → List PatchOp
  | .nil, _ => []
  | .cons _ _, .nil => []
  | .cons a as, .cons b bs =>
    (diff a b).map (.prefixed (.idx i)) ++ diffElems (i + 1) as bs

end

/-- `generatePatches` (spec-modelled): the structural diff. -/
def generatePatches (oldValue newValue : JsValue) : List PatchOp :=
  diff oldValue newValue

/-- `hasChanges`: whether the diff is non-empty. -/
def hasChanges (oldValue newValue : JsValue) : Bool :=
  generatePatches oldValue newValue ≠ []

theorem diff_self (a : JsValue) : diff a a = [] := by
  unfold diff
  rw [if_pos rfl]

theorem diff_obj_obj (fa fb : JsFields) (h : JsValue.obj fa ≠ .obj fb) :
    diff (.obj fa) (.obj fb) = removesF fa fb ++ commonsF fa fb ++ addsF fa fb := by
  unfold diff
  rw [if_neg h]

theorem diff_arr_arr (xa xb : JsList) (h : JsValue.arr xa ≠ .arr xb) :
    diff (.arr xa) (.arr xb)
      = diffElems 0 xa xb
        ++ List.replicate (xa.length - xb.length) (.remove [.idx xb.length])
        ++ addTail xa.length (JsList.drop xa.length xb) := by
  unfold diff
  rw [if_neg h]

theorem diff_ne_shape (a b : JsValue) (hne : a ≠ b)
    (h : (match a, b with
          | .obj _, .obj _ => False
          | .arr _, .arr _ => False
          | _, _ => True)) :
    diff a b = [.replace [] b] := by
  unfold diff
  rw [if_neg hne]
  cases a <;> cases b <;> simp_all

/-! ### The diff emits no `add` with an empty path -/

theorem noRootAdd_map_prefixed (s : Seg) (ops : List PatchOp) :
    ∀ p q, PatchOp.add p q ∈ ops.map (.prefixed s) → p ≠ [] := by
  intro p q hm
  obtain ⟨op, _, hpre⟩ := List.mem_map.mp hm
  cases op <;> simp [PatchOp.prefixed] at hpre
  obtain ⟨hp, _⟩ := hpre
  rw [← hp]
  simp

theorem noRootAdd_removesF (fa fb : JsFields) :
    ∀ p q, PatchOp.add p q ∈ removesF fa fb → p ≠ [] := by
  induction fa using JsFields.inductionOn with
  | hnil => intro p q hm; simp [removesF] at hm
  | hcons k v t ih =>
    intro p q hm
    simp only [removesF, List.mem_append] at hm
    rcases hm with hm | hm
    · by_cases hk : fb.hasKey k <;> simp [hk] at hm
    · exact ih p q hm

theorem noRootAdd_addsF (fa fb : JsFields) :
    ∀ p q, PatchOp.add p q ∈ addsF fa fb → p ≠ [] := by
  induction fb using JsFields.inductionOn with
  | hnil => intro p q hm; simp [addsF] at hm
  | hcons k v t ih =>
    intro p q hm
    simp only [addsF, List.mem_append] at hm
    rcases hm with hm | hm
    · by_cases hk : fa.hasKey k <;> simp [hk] at hm
      obtain ⟨hp, _⟩ := hm
      rw [hp]; simp
    · exact ih p q hm

theorem noRootAdd_addTail (ys : JsList) : ∀ (i : Nat) (p : List Seg)
    (q : JsValue), PatchOp.add p q ∈ addTail i ys → p ≠ [] := by
  induction ys using JsList.inductionOnList with
  | hnil => intro i p q hm; simp [addTail] at hm
  | hcons y t ih =>
    intro i p q hm
    simp only [addTail, List.mem_cons] at hm
    rcases hm with hm | hm
    · obtain ⟨hp, _⟩ := PatchOp.add.injEq .. ▸ hm
      rw [hp]; simp
    · exact ih (i + 1) p q hm

theorem noRootAdd_commonsF (fa fb : JsFields) :
    ∀ p q, PatchOp.add p q ∈ commonsF fa fb → p ≠ [] := by
  induction fa using JsFields.inductionOn with
  | hnil => intro p q hm; simp [commonsF] at hm
  | hcons k v t ih =>
    intro p q hm
    simp only [commonsF, List.mem_append] at hm
    rcases hm with hm | hm
    · cases hl : fb.lookup k with
      | none => rw [hl] at hm; simp at hm
      | some v2 =>
        rw [hl] at hm
        exact noRootAdd_map_prefixed _ _ p q hm
    · exact ih p q hm

theorem noRootAdd_diffElems (xa : JsList) : ∀ (xb : JsList) (i : Nat)
    (p : List Seg) (q : JsValue), PatchOp.add p q ∈ diffElems i xa xb → p ≠ [] := by
  induction xa using JsList.inductionOnList with
  | hnil => intro xb i p q hm; simp [diffElems] at hm
  | hcons a as ih =>
    intro xb i p q hm
    cases xb with
    | nil => simp [diffElems] at hm
    | cons b bs =>
      simp only [diffElems, List.mem_append] at hm
      rcases hm with hm | hm
      · exact noRootAdd_map_prefixed _ _ p q hm
      · exact ih bs (i + 1) p q hm

theorem noRootAdd_diff (a b : JsValue) :
    ∀ p q, PatchOp.add p q ∈ diff a b → p ≠ [] := by
  intro p q hm
  by_cases heq : a = b
  · subst heq; rw [diff_self] at hm; simp at hm
  · cases a with
    | obj fa =>
      cases b with
      | obj fb =>
        rw [diff_obj_obj fa fb heq] at hm
        simp only [List.mem_append] at hm
        rcases hm with (hm | hm) | hm
        · exact noRootAdd_removesF fa fb p q hm
        · exact noRootAdd_commonsF fa fb p q hm
        · exact noRootAdd_addsF fa fb p q hm
      | undef => rw [diff_ne_shape _ _ heq trivial] at hm; simp at hm
      | null => rw [diff_ne_shape _ _ heq trivial] at hm; simp at hm
      | bool b2 => rw [diff_ne_shape _ _ heq trivial] at hm; simp at hm
      | num n2 => rw [diff_ne_shape _ _ heq trivial] at hm; simp at hm
      | str s2 => rw [diff_ne_shape _ _ heq trivial] at hm; simp at hm
      | arr x2 => rw [diff_ne_shape _ _ heq trivial] at hm; simp at hm
    | arr xa =>
      cases b with
      | arr xb =>
        rw [diff_arr_arr xa xb heq] at hm
        simp only [List.mem_append] at hm
        rcases hm with (hm | hm) | hm
        · exact noRootAdd_diffElems xa xb 0 p q hm
        · exact absurd (List.eq_of_mem_replicate hm) (by simp)
        · exact noRootAdd_addTail _ xa.length p q hm
      | undef => rw [diff_ne_shape _ _ heq trivial] at hm; simp at hm
      | null => rw [diff_ne_shape _ _ heq trivial] at hm; simp at hm
      | bool b2 => rw [diff_ne_shape _ _ heq trivial] at hm; simp at hm
      | num n2 => rw [diff_ne_shape _ _ heq trivial] at hm; simp at hm
      | str s2 => rw [diff_ne_shape _ _ heq trivial] at hm; simp at hm
      | obj f2 => rw [diff_ne_shape _ _ heq trivial] at hm; simp at hm
    | undef => rw [diff_ne_shape _ _ heq trivial] at hm; simp at hm
    | null => rw [diff_ne_shape _ _ heq trivial] at hm; simp at hm
    | bool b1 => rw [diff_ne_shape _ _ heq trivial] at hm; simp at hm
    | num n1 => rw [diff_ne_shape _ _ heq trivial] at hm; simp at hm
    | str s1 => rw [diff_ne_shape _ _ heq trivial] at hm; simp at hm

/-! ### Sizes, for the strong induction -/

mutual

/-- Structural size of a document. -/
def jsSize : JsValue → Nat
  | .arr l => jsSizeList l + 1
  | .obj fs => jsSizeFields fs + 1
  | _ => 1

/-- Size of an array body. -/
def jsSizeList : JsList → Nat
  | .nil => 0
  | .cons h t => jsSize h + jsSizeList t + 1

/-- Size of an object body. -/
def jsSizeFields : JsFields → Nat
  | .nil => 0
  | .cons _ v t => jsSize v + jsSizeFields t + 1

end

theorem jsSize_pos (a : JsValue) : 1 ≤ jsSize a := by
  cases a <;> simp [jsSize]

theorem jsSize_lookup_le (fs : JsFields) (k : String) (v : JsValue)
    (h : fs.lookup k = some v) : jsSize v ≤ jsSizeFields fs := by
  induction fs using JsFields.inductionOn with
  | hnil => simp [JsFields.lookup] at h
  | hcons k1 v1 t ih =>
    simp only [JsFields.lookup] at h
    by_cases hk : k1 = k
    · rw [if_pos hk, Option.some.injEq] at h
      subst h
      simp [jsSizeFields]
      omega
    · rw [if_neg hk] at h
      have := ih h
      simp only [jsSizeFields]
      omega

theorem jsSize_idx_le (xs : JsList) : ∀ (i : Nat) (v : JsValue),
    xs.idx? i = some v → jsSize v ≤ jsSizeList xs := by
  induction xs using JsList.inductionOnList with
  | hnil => intro i v h; simp [JsList.idx?] at h
  | hcons x t ih =>
    intro i v h
    cases i with
    | zero =>
      simp only [JsList.idx?, Option.some.injEq] at h
      subst h
      simp only [jsSizeList]
      omega
    | succ n =>
      simp only [JsList.idx?] at h
      have := ih n v h
      simp only [jsSizeList]
      omega

/-! ### Object-field lemmas for the round-trip proof -/

/-- Keep only the fields whose key also occurs in `fb`. -/
def JsFields.restrict : JsFields → JsFields → JsFields
  | .nil, _ => .nil
  | .cons k v t, fb =>
    if fb.hasKey k then .cons k v (t.restrict fb) else t.restrict fb

/-- Replace every value by `fb`'s value at the same key, where present. -/
def JsFields.overrideBy : JsFields → JsFields → JsFields
  | .nil, _ => .nil
  | .cons k v t, fb =>
    .cons k (match fb.lookup k with | some v2 => v2 | none => v)
      (t.overrideBy fb)

/-- All keys of `fs` are strictly below `k`. -/
def keysBelow : JsFields → String → Bool
  | .nil, _ => true
  | .cons kp _ t, k => strLtB kp k && keysBelow t k

theorem JsFields.cat_assoc (a b c : JsFields) :
    (a.cat b).cat c = a.cat (b.cat c) := by
  induction a using JsFields.inductionOn with
  | hnil => rfl
  | hcons k v t ih => simp [JsFields.cat, ih]

theorem JsFields.hasKey_cat (a b : JsFields) (k : String) :
    (a.cat b).hasKey k = (a.hasKey k || b.hasKey k) := by
  induction a using JsFields.inductionOn with
  | hnil => simp [JsFields.cat, JsFields.hasKey]
  | hcons k1 v1 t ih => by_cases hk : k1 = k <;>
      simp [JsFields.cat, JsFields.hasKey, hk, ih]

theorem JsFields.lookup_cat_right (a b : JsFields) (k : String)
    (h : a.hasKey k = false) : (a.cat b).lookup k = b.lookup k := by
  induction a using JsFields.inductionOn with
  | hnil => rfl
  | hcons k1 v1 t ih =>
    simp only [JsFields.hasKey, Bool.or_eq_false_iff] at h
    have hk : k1 ≠ k := by
      intro he; rw [he] at h; simp at h
    simp [JsFields.cat, JsFields.lookup, hk, ih h.2]

theorem JsFields.set_cat_right (a b : JsFields) (k : String) (w : JsValue)
    (h : a.hasKey k = false) : (a.cat b).set k w = a.cat (b.set k w) := by
  induction a using JsFields.inductionOn with
  | hnil => rfl
  | hcons k1 v1 t ih =>
    simp only [JsFields.hasKey, Bool.or_eq_false_iff] at h
    have hk : k1 ≠ k := by
      intro he; rw [he] at h; simp at h
    simp [JsFields.cat, JsFields.set, hk, ih h.2]

theorem JsFields.remove_cat_right (a b : JsFields) (k : String)
    (h : a.hasKey k = false) : (a.cat b).remove k = a.cat (b.remove k) := by
  induction a using JsFields.inductionOn with
  | hnil => rfl
  | hcons k1 v1 t ih =>
    simp only [JsFields.hasKey, Bool.or_eq_false_iff] at h
    have hk : k1 ≠ k := by
      intro he; rw [he] at h; simp at h
    simp [JsFields.cat, JsFields.remove, hk, ih h.2]

theorem JsFields.insert_cat_right (a b : JsFields) (k : String) (w : JsValue)
    (h : keysBelow a k = true) : (a.cat b).insert k w = a.cat (b.insert k w) := by
  induction a using JsFields.inductionOn with
  | hnil => rfl
  | hcons k1 v1 t ih =>
    simp only [keysBelow, Bool.and_eq_true] at h
    have h1 : strLtB k k1 = false := strLtB_asymm k1 k h.1
    have h2 : k ≠ k1 := fun he => strLtB_ne k1 k h.1 he.symm
    simp [JsFields.cat, JsFields.insert, h1, h2, ih h.2]

theorem keyLtAll_hasKey (k : String) (t : JsFields) (k2 : String)
    (hall : keyLtAll k t = true) (hk : t.hasKey k2 = true) :
    strLtB k k2 = true := by
  induction t using JsFields.inductionOn with
  | hnil => simp [JsFields.hasKey] at hk
  | hcons k1 v1 t ih =>
    simp only [keyLtAll, Bool.and_eq_true] at hall
    simp only [JsFields.hasKey, Bool.or_eq_true] at hk
    rcases hk with hk | hk
    · rw [decide_eq_true_eq] at hk
      rw [← hk]; exact hall.1
    · exact ih hall.2 hk

theorem JsFields.lookup_some_hasKey (fs : JsFields) (k : String) (v : JsValue)
    (h : fs.lookup k = some v) : fs.hasKey k = true := by
  induction fs using JsFields.inductionOn with
  | hnil => simp [JsFields.lookup] at h
  | hcons k1 v1 t ih =>
    simp only [JsFields.lookup] at h
    by_cases hk : k1 = k
    · simp [JsFields.hasKey, hk]
    · rw [if_neg hk] at h
      simp [JsFields.hasKey, ih h]

theorem JsFields.hasKey_lookup (fs : JsFields) (k : String)
    (h : fs.hasKey k = true) : ∃ v, fs.lookup k = some v := by
  induction fs using JsFields.inductionOn with
  | hnil => simp [JsFields.hasKey] at h
  | hcons k1 v1 t ih =>
    simp only [JsFields.hasKey, Bool.or_eq_true] at h
    by_cases hk : k1 = k
    · exact ⟨v1, by simp [JsFields.lookup, hk]⟩
    · rcases h with h | h
      · rw [decide_eq_true_eq] at h; exact absurd h hk
      · obtain ⟨v, hv⟩ := ih h
        exact ⟨v, by simp [JsFields.lookup, hk, hv]⟩

theorem JsFields.hasKey_restrict (fa fb : JsFields) (k : String) :
    (fa.restrict fb).hasKey k = (fa.hasKey k && fb.hasKey k) := by
  induction fa using JsFields.inductionOn with
  | hnil => simp [JsFields.restrict, JsFields.hasKey]
  | hcons k1 v1 t ih =>
    by_cases hb : fb.hasKey k1
    · by_cases hk : k1 = k
      · subst hk
        simp [JsFields.restrict, hb, JsFields.hasKey, ih]
      · simp [JsFields.restrict, hb, JsFields.hasKey, hk, ih]
    · by_cases hk : k1 = k
      · subst hk
        simp only [Bool.not_eq_true] at hb
        simp [JsFields.restrict, hb, JsFields.hasKey, ih]
      · simp only [Bool.not_eq_true] at hb
        simp [JsFields.restrict, hb, JsFields.hasKey, hk, ih]

theorem keyLtAll_restrict (k : String) (t fb : JsFields)
    (h : keyLtAll k t = true) : keyLtAll k (t.restrict fb) = true := by
  induction t using JsFields.inductionOn with
  | hnil => rfl
  | hcons k1 v1 t ih =>
    simp only [keyLtAll, Bool.and_eq_true] at h
    by_cases hb : fb.hasKey k1
    · simp [JsFields.restrict, hb, keyLtAll, h.1, ih h.2]
    · simp only [Bool.not_eq_true] at hb
      simp [JsFields.restrict, hb, ih h.2]

theorem JsFields.sortedKeys_restrict (fa fb : JsFields)
    (h : fa.sortedKeys = true) : (fa.restrict fb).sortedKeys = true := by
  induction fa using JsFields.inductionOn with
  | hnil => rfl
  | hcons k1 v1 t ih =>
    simp only [JsFields.sortedKeys, Bool.and_eq_true] at h
    by_cases hb : fb.hasKey k1
    · simp [JsFields.restrict, hb, JsFields.sortedKeys,
        keyLtAll_restrict k1 t fb h.1, ih h.2]
    · simp only [Bool.not_eq_true] at hb
      simp [JsFields.restrict, hb, ih h.2]

theorem JsFields.hasKey_overrideBy (x fb : JsFields) (k : String) :
    (x.overrideBy fb).hasKey k = x.hasKey k := by
  induction x using JsFields.inductionOn with
  | hnil => rfl
  | hcons k1 v1 t ih => simp [JsFields.overrideBy, JsFields.hasKey, ih]

theorem keyLtAll_overrideBy (k : String) (x fb : JsFields) :
    keyLtAll k (x.overrideBy fb) = keyLtAll k x := by
  induction x using JsFields.inductionOn with
  | hnil => rfl
  | hcons k1 v1 t ih => simp [JsFields.overrideBy, keyLtAll, ih]

theorem JsFields.sortedKeys_overrideBy (x fb : JsFields) :
    (x.overrideBy fb).sortedKeys = x.sortedKeys := by
  induction x using JsFields.inductionOn with
  | hnil => rfl
  | hcons k1 v1 t ih =>
    simp [JsFields.overrideBy, JsFields.sortedKeys, keyLtAll_overrideBy, ih]

theorem JsFields.lookup_overrideBy_sub (x fb : JsFields) (k : String)
    (v : JsValue) (hsub : ∀ k1, x.hasKey k1 = true → fb.hasKey k1 = true)
    (h : (x.overrideBy fb).lookup k = some v) : fb.lookup k = some v := by
  induction x using JsFields.inductionOn with
  | hnil => simp [JsFields.overrideBy, JsFields.lookup] at h
  | hcons k1 v1 t ih =>
    simp only [JsFields.overrideBy, JsFields.lookup] at h
    by_cases hk : k1 = k
    · subst hk
      rw [if_pos rfl, Option.some.injEq] at h
      have hb : fb.hasKey k1 = true :=
        hsub k1 (by simp [JsFields.hasKey])
      obtain ⟨v2, hv2⟩ := JsFields.hasKey_lookup fb k1 hb
      rw [hv2] at h
      simp only [] at h
      rw [hv2, h]
    · rw [if_neg hk] at h
      exact ih (fun k2 hk2 =>
        hsub k2 (by simp [JsFields.hasKey, hk2])) h

theorem keysBelow_of_forall (pre : JsFields) (k : String)
    (h : ∀ kp, pre.hasKey kp = true → strLtB kp k = true) :
    keysBelow pre k = true := by
  induction pre using JsFields.inductionOn with
  | hnil => rfl
  | hcons k1 v1 t ih =>
    simp only [keysBelow, Bool.and_eq_true]
    refine ⟨h k1 (by simp [JsFields.hasKey]), ih fun kp hkp => h kp ?_⟩
    simp [JsFields.hasKey, hkp]

theorem JsFields.insert_front (m : JsFields) (k : String) (v : JsValue)
    (h : ∀ k1, m.hasKey k1 = true → strLtB k k1 = true) :
    m.insert k v = .cons k v m := by
  cases m with
  | nil => rfl
  | cons k1 v1 t =>
    have h1 : strLtB k k1 = true := h k1 (by simp [JsFields.hasKey])
    simp [JsFields.insert, h1]

theorem addsF_head_skip (t : JsFields) (k : String) (v : JsValue)
    (m : JsFields) (h : t.hasKey k = false) :
    addsF (.cons k v m) t = addsF m t := by
  induction t using JsFields.inductionOn with
  | hnil => rfl
  | hcons k1 v1 t1 ih =>
    simp only [JsFields.hasKey, Bool.or_eq_false_iff] at h
    have hk : k ≠ k1 := by
      intro he; rw [he] at h; simp at h
    simp only [addsF, JsFields.hasKey]
    rw [ih h.2]
    congr 2
    simp [hk]

theorem addsF_congr (fb : JsFields) : ∀ (fa m : JsFields),
    (∀ k, fb.hasKey k = true → fa.hasKey k = m.hasKey k) →
    addsF fa fb = addsF m fb := by
  induction fb using JsFields.inductionOn with
  | hnil => intro fa m _; rfl
  | hcons k1 v1 t ih =>
    intro fa m h
    have hk1 : fa.hasKey k1 = m.hasKey k1 :=
      h k1 (by simp [JsFields.hasKey])
    simp only [addsF, hk1]
    rw [ih fa m fun k hk => h k (by simp [JsFields.hasKey, hk])]

theorem jsWf_lookup (fs : JsFields) (k : String) (v : JsValue)
    (hwf : jsWfFields fs = true) (h : fs.lookup k = some v) :
    jsWf v = true := by
  induction fs using JsFields.inductionOn with
  | hnil => simp [JsFields.lookup] at h
  | hcons k1 v1 t ih =>
    simp only [jsWfFields, Bool.and_eq_true] at hwf
    simp only [JsFields.lookup] at h
    by_cases hk : k1 = k
    · rw [if_pos hk, Option.some.injEq] at h
      rw [← h]; exact hwf.1
    · rw [if_neg hk] at h
      exact ih hwf.2 h

/-! ### Phase lemmas: objects -/

/-- Phase 1: applying the removals takes `pre ++ t` to `pre ++ (t ∩ fb)`. -/
theorem removesF_apply (fb : JsFields) :
    ∀ (t pre : JsFields),
      (∀ k, t.hasKey k = true → pre.hasKey k = false) →
      t.sortedKeys = true →
      applyPatches (.obj (pre.cat t)) (removesF t fb)
        = some (.obj (pre.cat (t.restrict fb))) := by
  intro t
  induction t using JsFields.inductionOn with
  | hnil => intro pre _ _; rfl
  | hcons k v t ih =>
    intro pre hdisj hsort
    simp only [JsFields.sortedKeys, Bool.and_eq_true] at hsort
    have hprek : pre.hasKey k = false :=
      hdisj k (by simp [JsFields.hasKey])
    have hdisj2 : ∀ k2, t.hasKey k2 = true → (pre.cat (.cons k v .nil)).hasKey k2 = false := by
      intro k2 hk2
      rw [JsFields.hasKey_cat]
      have h1 : pre.hasKey k2 = false :=
        hdisj k2 (by simp [JsFields.hasKey, hk2])
      have h2 : k ≠ k2 := strLtB_ne k k2 (keyLtAll_hasKey k t k2 hsort.1 hk2)
      simp [h1, JsFields.hasKey, h2]
    by_cases hb : fb.hasKey k
    · have hshift : pre.cat (.cons k v t) = (pre.cat (.cons k v .nil)).cat t := by
        rw [JsFields.cat_assoc]; rfl
      have hshift2 : pre.cat (.cons k v (t.restrict fb))
          = (pre.cat (.cons k v .nil)).cat (t.restrict fb) := by
        rw [JsFields.cat_assoc]; rfl
      simp only [removesF, hb, if_pos, List.nil_append]
      rw [hshift, ih (pre.cat (.cons k v .nil)) hdisj2 hsort.2, ← hshift2]
      simp [JsFields.restrict, hb]
    · simp only [Bool.not_eq_true] at hb
      simp only [removesF, hb, Bool.false_eq_true, if_false, List.singleton_append]
      have hhK : (pre.cat (.cons k v t)).hasKey k = true := by
        rw [JsFields.hasKey_cat]
        simp [JsFields.hasKey]
      have hrem : (pre.cat (.cons k v t)).remove k = pre.cat t := by
        rw [JsFields.remove_cat_right _ _ _ hprek]
        simp [JsFields.remove]
      simp only [applyPatches, applyOp, removeAtPath, hhK, if_pos, hrem]
      rw [ih pre (fun k2 hk2 => hdisj k2 (by simp [JsFields.hasKey, hk2])) hsort.2]
      simp [JsFields.restrict, hb]

/-- Phase 2: applying the recursive diffs of shared keys takes
`pre ++ (t ∩ fb)` to `pre ++ ((t ∩ fb) overridden by fb)`.  The `ih`
parameter is the round-trip induction hypothesis for smaller documents. -/
theorem commonsF_apply (N : Nat)
    (ih : ∀ a b, jsSize a + jsSize b < N → jsWf a = true → jsWf b = true →
        applyPatches a (diff a b) = some b) (fb : JsFields)
    (hwfb : jsWfFields fb = true) :
    ∀ (t pre : JsFields),
      jsSizeFields t + jsSizeFields fb < N →
      (∀ k, t.hasKey k = true → pre.hasKey k = false) →
      t.sortedKeys = true →
      jsWfFields t = true →
      applyPatches (.obj (pre.cat (t.restrict fb))) (commonsF t fb)
        = some (.obj (pre.cat ((t.restrict fb).overrideBy fb))) := by
  intro t
  induction t using JsFields.inductionOn with
  | hnil => intro pre _ _ _ _; rfl
  | hcons k v t iht =>
    intro pre hsize hdisj hsort hwt
    simp only [JsFields.sortedKeys, Bool.and_eq_true] at hsort
    simp only [jsWfFields, Bool.and_eq_true] at hwt
    have hprek : pre.hasKey k = false :=
      hdisj k (by simp [JsFields.hasKey])
    have hdisj2 : ∀ vx, ∀ k2, t.hasKey k2 = true →
        (pre.cat (.cons k vx .nil)).hasKey k2 = false := by
      intro vx k2 hk2
      rw [JsFields.hasKey_cat]
      have h1 : pre.hasKey k2 = false :=
        hdisj k2 (by simp [JsFields.hasKey, hk2])
      have h2 : k ≠ k2 := strLtB_ne k k2 (keyLtAll_hasKey k t k2 hsort.1 hk2)
      simp [h1, JsFields.hasKey, h2]
    cases hl : fb.lookup k with
    | none =>
      have hb : fb.hasKey k = false := by
        cases hhb : fb.hasKey k
        · rfl
        · obtain ⟨v2, hv2⟩ := JsFields.hasKey_lookup fb k hhb
          rw [hv2] at hl; exact absurd hl (by simp)
      simp only [commonsF, hl, List.nil_append]
      rw [show (JsFields.cons k v t).restrict fb = t.restrict fb by
        simp [JsFields.restrict, hb]]
      exact iht pre (by simp only [jsSizeFields] at hsize; omega)
        (fun k2 hk2 => hdisj k2 (by simp [JsFields.hasKey, hk2]))
        hsort.2 hwt.2
    | some v2 =>
      have hb : fb.hasKey k = true := JsFields.lookup_some_hasKey fb k v2 hl
      have hres : (JsFields.cons k v t).restrict fb
          = .cons k v (t.restrict fb) := by
        simp [JsFields.restrict, hb]
      simp only [commonsF, hl, hres]
      rw [applyPatches_append]
      have hlk : (pre.cat (.cons k v (t.restrict fb))).lookup k = some v := by
        rw [JsFields.lookup_cat_right _ _ _ hprek]
        simp [JsFields.lookup]
      have hin : applyPatches v (diff v v2) = some v2 := by
        refine ih v v2 ?_ hwt.1 (jsWf_lookup fb k v2 hwfb hl)
        have h1 := jsSize_lookup_le fb k v2 hl
        simp only [jsSizeFields] at hsize
        omega
      rw [applyPatches_prefixKey k (diff v v2) _ v v2 hlk
        (fun p q hm => noRootAdd_diff v v2 p q hm) hin]
      have hset : (pre.cat (.cons k v (t.restrict fb))).set k v2
          = pre.cat (.cons k v2 (t.restrict fb)) := by
        rw [JsFields.set_cat_right _ _ _ _ hprek]
        simp [JsFields.set]
      rw [hset]
      simp only [Option.some_bind]
      have hshift : pre.cat (.cons k v2 (t.restrict fb))
          = (pre.cat (.cons k v2 .nil)).cat (t.restrict fb) := by
        rw [JsFields.cat_assoc]; rfl
      rw [hshift, iht (pre.cat (.cons k v2 .nil))
        (by simp only [jsSizeFields] at hsize ⊢; omega)
        (hdisj2 v2) hsort.2 hwt.2]
      have hshift2 : (pre.cat (.cons k v2 .nil)).cat ((t.restrict fb).overrideBy fb)
          = pre.cat (.cons k v2 ((t.restrict fb).overrideBy fb)) := by
        rw [JsFields.cat_assoc]; rfl
      rw [hshift2]
      have hover : (JsFields.cons k v (t.restrict fb)).overrideBy fb
          = .cons k v2 ((t.restrict fb).overrideBy fb) := by
        simp [JsFields.overrideBy, hl]
      rw [hover]

/-- Phase 3: applying the additions takes `pre ++ m` to `pre ++ fb`, when `m`
is a sorted sub-fieldlist of the sorted `fb` agreeing with it valuewise and
`pre`'s keys lie below everything in `m` and `fb`. -/
theorem addsF_apply (fb : JsFields) : ∀ (m pre : JsFields),
    m.sortedKeys = true → fb.sortedKeys = true →
    (∀ k, m.hasKey k = true → fb.hasKey k = true) →
    (∀ k v, m.lookup k = some v → fb.lookup k = some v) →
    (∀ k k2, pre.hasKey k = true →
      (m.hasKey k2 = true ∨ fb.hasKey k2 = true) → strLtB k k2 = true) →
    applyPatches (.obj (pre.cat m)) (addsF m fb) = some (.obj (pre.cat fb)) := by
  induction fb using JsFields.inductionOn with
  | hnil =>
    intro m pre _ _ hsub _ _
    have hm : m = .nil := by
      cases m with
      | nil => rfl
      | cons k1 v1 t =>
        have := hsub k1 (by simp [JsFields.hasKey])
        simp [JsFields.hasKey] at this
    subst hm
    rfl
  | hcons k v t ih =>
    intro m pre hsm hsfb hsub hagree hpre
    simp only [JsFields.sortedKeys, Bool.and_eq_true] at hsfb
    cases hm : m.hasKey k with
    | true =>
      cases m with
      | nil => simp [JsFields.hasKey] at hm
      | cons k1 v1 m1 =>
        simp only [JsFields.sortedKeys, Bool.and_eq_true] at hsm
        have hk1 : k1 = k := by
          by_cases hk : k1 = k
          · exact hk
          · exfalso
            simp only [JsFields.hasKey, Bool.or_eq_true, decide_eq_true_eq] at hm
            rcases hm with hm | hm
            · exact hk hm
            · have h1 : strLtB k1 k = true := keyLtAll_hasKey k1 m1 k hsm.1 hm
              have h2 : (JsFields.cons k v t).hasKey k1 = true :=
                hsub k1 (by simp [JsFields.hasKey])
              simp only [JsFields.hasKey, Bool.or_eq_true, decide_eq_true_eq] at h2
              rcases h2 with h2 | h2
              · exact hk (h2.symm ▸ rfl)
              · have h3 : strLtB k k1 = true := keyLtAll_hasKey k t k1 hsfb.1 h2
                rw [strLtB_asymm k k1 h3] at h1
                exact Bool.false_ne_true h1
        subst hk1
        have hv1 : v1 = v := by
          have h2 := hagree k1 v1 (by simp [JsFields.lookup])
          simp [JsFields.lookup] at h2
          exact h2.symm
        subst hv1
        have hknott : t.hasKey k1 = false := by
          cases hkt : t.hasKey k1
          · rfl
          · have := keyLtAll_hasKey k1 t k1 hsfb.1 hkt
            rw [strLtB_irrefl] at this
            exact absurd this (by simp)
        have hknotm1 : m1.hasKey k1 = false := by
          cases hkm : m1.hasKey k1
          · rfl
          · have := keyLtAll_hasKey k1 m1 k1 hsm.1 hkm
            rw [strLtB_irrefl] at this
            exact absurd this (by simp)
        have hsub2 : ∀ k2, m1.hasKey k2 = true → t.hasKey k2 = true := by
          intro k2 hk2
          have h2 : (JsFields.cons k1 v1 t).hasKey k2 = true :=
            hsub k2 (by simp [JsFields.hasKey, hk2])
          simp only [JsFields.hasKey, Bool.or_eq_true, decide_eq_true_eq] at h2
          rcases h2 with h2 | h2
          · subst h2
            rw [hknotm1] at hk2
            exact absurd hk2 (by simp)
          · exact h2
        have hagree2 : ∀ k2 v2, m1.lookup k2 = some v2 → t.lookup k2 = some v2 := by
          intro k2 v2 hk2
          have hne2 : k1 ≠ k2 := by
            intro he
            rw [← he] at hk2
            have hhk := JsFields.lookup_some_hasKey m1 k1 v2 hk2
            rw [hknotm1] at hhk
            exact Bool.false_ne_true hhk
          have h2 : (JsFields.cons k1 v1 m1).lookup k2 = some v2 := by
            simp [JsFields.lookup, hne2, hk2]
          have h3 := hagree k2 v2 h2
          simp only [JsFields.lookup, if_neg hne2] at h3
          exact h3
        have hpre2 : ∀ kp k2, (pre.cat (.cons k1 v1 .nil)).hasKey kp = true →
            (m1.hasKey k2 = true ∨ t.hasKey k2 = true) → strLtB kp k2 = true := by
          intro kp k2 hkp hk2
          rw [JsFields.hasKey_cat] at hkp
          simp only [Bool.or_eq_true] at hkp
          rcases hkp with hkp | hkp
          · refine hpre kp k2 hkp ?_
            rcases hk2 with hk2 | hk2
            · exact Or.inl (by simp [JsFields.hasKey, hk2])
            · exact Or.inr (by simp [JsFields.hasKey, hk2])
          · simp only [JsFields.hasKey, Bool.or_eq_true, decide_eq_true_eq] at hkp
            rcases hkp with hkp | hkp
            · subst hkp
              rcases hk2 with hk2 | hk2
              · exact keyLtAll_hasKey k1 m1 k2 hsm.1 hk2
              · exact keyLtAll_hasKey k1 t k2 hsfb.1 hk2
            · simp [JsFields.hasKey] at hkp
        simp only [addsF, hm, if_pos, List.nil_append]
        rw [addsF_head_skip t k1 v1 m1 hknott]
        have hshift : pre.cat (.cons k1 v1 m1)
            = (pre.cat (.cons k1 v1 .nil)).cat m1 := by
          rw [JsFields.cat_assoc]; rfl
        have hshift2 : (pre.cat (.cons k1 v1 .nil)).cat t
            = pre.cat (.cons k1 v1 t) := by
          rw [JsFields.cat_assoc]; rfl
        rw [hshift,
          ih m1 (pre.cat (.cons k1 v1 .nil)) hsm.2 hsfb.2 hsub2 hagree2 hpre2,
          hshift2]
    | false =>
      have hmbelow : ∀ k2, m.hasKey k2 = true → strLtB k k2 = true := by
        intro k2 hk2
        have h2 : (JsFields.cons k v t).hasKey k2 = true := hsub k2 hk2
        simp only [JsFields.hasKey, Bool.or_eq_true, decide_eq_true_eq] at h2
        rcases h2 with h2 | h2
        · subst h2
          rw [hm] at hk2
          exact absurd hk2 (by simp)
        · exact keyLtAll_hasKey k t k2 hsfb.1 h2
      have hbelow : keysBelow pre k = true := by
        refine keysBelow_of_forall pre k fun kp hkp => ?_
        exact hpre kp k hkp (Or.inr (by simp [JsFields.hasKey]))
      have hsub2 : ∀ k2, m.hasKey k2 = true → t.hasKey k2 = true := by
        intro k2 hk2
        have h2 : (JsFields.cons k v t).hasKey k2 = true := hsub k2 hk2
        simp only [JsFields.hasKey, Bool.or_eq_true, decide_eq_true_eq] at h2
        rcases h2 with h2 | h2
        · subst h2
          rw [hm] at hk2
          exact absurd hk2 (by simp)
        · exact h2
      have hagree2 : ∀ k2 v2, m.lookup k2 = some v2 → t.lookup k2 = some v2 := by
        intro k2 v2 hk2
        have hne : k ≠ k2 := by
          intro he
          rw [← he] at hk2
          have hhk := JsFields.lookup_some_hasKey m k v2 hk2
          rw [hm] at hhk
          exact Bool.false_ne_true hhk
        have h3 := hagree k2 v2 hk2
        simp only [JsFields.lookup, if_neg hne] at h3
        exact h3
      have hpre2 : ∀ kp k2, (pre.cat (.cons k v .nil)).hasKey kp = true →
          (m.hasKey k2 = true ∨ t.hasKey k2 = true) → strLtB kp k2 = true := by
        intro kp k2 hkp hk2
        rw [JsFields.hasKey_cat] at hkp
        simp only [Bool.or_eq_true] at hkp
        rcases hkp with hkp | hkp
        · refine hpre kp k2 hkp ?_
          rcases hk2 with hk2 | hk2
          · exact Or.inl hk2
          · exact Or.inr (by simp [JsFields.hasKey, hk2])
        · simp only [JsFields.hasKey, Bool.or_eq_true, decide_eq_true_eq] at hkp
          rcases hkp with hkp | hkp
          · subst hkp
            rcases hk2 with hk2 | hk2
            · exact hmbelow k2 hk2
            · exact keyLtAll_hasKey k t k2 hsfb.1 hk2
          · simp [JsFields.hasKey] at hkp
      simp only [addsF, hm, Bool.false_eq_true, if_false, List.singleton_append]
      have hins : (pre.cat m).insert k v = pre.cat (.cons k v m) := by
        rw [JsFields.insert_cat_right _ _ _ _ hbelow,
          JsFields.insert_front m k v hmbelow]
      simp only [applyPatches, applyOp, addAtPath, hins]
      have hshift : pre.cat (.cons k v m) = (pre.cat (.cons k v .nil)).cat m := by
        rw [JsFields.cat_assoc]; rfl
      have hshift2 : (pre.cat (.cons k v .nil)).cat t = pre.cat (.cons k v t) := by
        rw [JsFields.cat_assoc]; rfl
      rw [hshift,
        ih m (pre.cat (.cons k v .nil)) hsm hsfb.2 hsub2 hagree2 hpre2,
        hshift2]

/-! ### Array lemmas for the round-trip proof -/

/-- Pointwise override: replace each element by the new array's element at
the same index, keeping extra old elements. -/
def JsList.overrideBy : JsList → JsList → JsList
  | .nil, _ => .nil
  | .cons a as, .nil => .cons a as
  | .cons _ as, .cons b bs => .cons b (as.overrideBy bs)

theorem JsList.cat_assoc_list (a b c : JsList) :
    (a.cat b).cat c = a.cat (b.cat c) := by
  induction a using JsList.inductionOnList with
  | hnil => rfl
  | hcons x t ih => simp [JsList.cat, ih]

theorem JsList.cat_nil (a : JsList) : a.cat .nil = a := by
  induction a using JsList.inductionOnList with
  | hnil => rfl
  | hcons x t ih => simp [JsList.cat, ih]

theorem JsList.length_cat (a b : JsList) :
    (a.cat b).length = a.length + b.length := by
  induction a using JsList.inductionOnList with
  | hnil => simp [JsList.cat, JsList.length]
  | hcons x t ih =>
    simp [JsList.cat, JsList.length, ih]
    omega

theorem JsList.idx?_cat_length (pre : JsList) (x : JsValue) (rest : JsList) :
    (pre.cat (.cons x rest)).idx? pre.length = some x := by
  induction pre using JsList.inductionOnList with
  | hnil => rfl
  | hcons y t ih => simpa [JsList.cat, JsList.length, JsList.idx?] using ih

theorem JsList.set_cat_length (pre : JsList) (x w : JsValue) (rest : JsList) :
    (pre.cat (.cons x rest)).set pre.length w = pre.cat (.cons w rest) := by
  induction pre using JsList.inductionOnList with
  | hnil => rfl
  | hcons y t ih => simpa [JsList.cat, JsList.length, JsList.set] using ih

theorem JsList.removeAt_cat_length (pre : JsList) (x : JsValue) (rest : JsList) :
    (pre.cat (.cons x rest)).removeAt pre.length = pre.cat rest := by
  induction pre using JsList.inductionOnList with
  | hnil => rfl
  | hcons y t ih => simpa [JsList.cat, JsList.length, JsList.removeAt] using ih

theorem JsList.insertAt_length (pre : JsList) (w : JsValue) :
    pre.insertAt pre.length w = pre.cat (.cons w .nil) := by
  induction pre using JsList.inductionOnList with
  | hnil => rfl
  | hcons y t ih => simpa [JsList.cat, JsList.length, JsList.insertAt] using ih

theorem JsList.drop_of_le (n : Nat) : ∀ xs : JsList, xs.length ≤ n →
    JsList.drop n xs = .nil := by
  induction n with
  | zero =>
    intro xs h
    cases xs with
    | nil => rfl
    | cons x t => simp [JsList.length] at h
  | succ n ih =>
    intro xs h
    cases xs with
    | nil => rfl
    | cons x t =>
      simp only [JsList.length] at h
      simpa [JsList.drop] using ih t (by omega)

theorem JsList.length_drop (n : Nat) : ∀ xs : JsList,
    (JsList.drop n xs).length = xs.length - n := by
  induction n with
  | zero => intro xs; simp [JsList.drop]
  | succ n ih =>
    intro xs
    cases xs with
    | nil => simp [JsList.drop, JsList.length]
    | cons x t => simp [JsList.drop, JsList.length, ih t]

theorem JsList.take_cat_drop (n : Nat) : ∀ xs : JsList,
    (JsList.take n xs).cat (JsList.drop n xs) = xs := by
  induction n with
  | zero => intro xs; rfl
  | succ n ih =>
    intro xs
    cases xs with
    | nil => rfl
    | cons x t => simp [JsList.take, JsList.drop, JsList.cat, ih t]

theorem JsList.length_take_of_le (n : Nat) : ∀ xs : JsList, n ≤ xs.length →
    (JsList.take n xs).length = n := by
  induction n with
  | zero => intro xs _; rfl
  | succ n ih =>
    intro xs h
    cases xs with
    | nil => simp [JsList.length] at h
    | cons x t =>
      simp only [JsList.length] at h
      simp [JsList.take, JsList.length, ih t (by omega)]

theorem JsList.overrideBy_of_ge : ∀ xa xb : JsList, xb.length ≤ xa.length →
    xa.overrideBy xb = xb.cat (JsList.drop xb.length xa) := by
  intro xa
  induction xa using JsList.inductionOnList with
  | hnil =>
    intro xb h
    simp only [JsList.length] at h
    cases xb with
    | nil => rfl
    | cons b bs => simp [JsList.length] at h
  | hcons a as ih =>
    intro xb h
    cases xb with
    | nil => simp [JsList.overrideBy, JsList.cat, JsList.drop]
    | cons b bs =>
      simp only [JsList.length] at h
      simp [JsList.overrideBy, JsList.cat, JsList.drop, JsList.length,
        ih bs (by omega)]

theorem JsList.overrideBy_of_le : ∀ xa xb : JsList, xa.length ≤ xb.length →
    xa.overrideBy xb = JsList.take xa.length xb := by
  intro xa
  induction xa using JsList.inductionOnList with
  | hnil => intro xb h; rfl
  | hcons a as ih =>
    intro xb h
    cases xb with
    | nil => simp [JsList.length] at h
    | cons b bs =>
      simp only [JsList.length] at h
      simp [JsList.overrideBy, JsList.take, JsList.length, ih bs (by omega)]

/-! ### Phase lemmas: arrays -/

/-- Phase 1: recursive diffs of shared indices. -/
theorem diffElems_apply (N : Nat)
    (ih : ∀ a b, jsSize a + jsSize b < N → jsWf a = true → jsWf b = true →
        applyPatches a (diff a b) = some b) :
    ∀ (xs ys pre : JsList),
      jsSizeList xs + jsSizeList ys < N →
      jsWfList xs = true → jsWfList ys = true →
      applyPatches (.arr (pre.cat xs)) (diffElems pre.length xs ys)
        = some (.arr (pre.cat (xs.overrideBy ys))) := by
  intro xs
  induction xs using JsList.inductionOnList with
  | hnil => intro ys pre _ _ _; rfl
  | hcons a as iha =>
    intro ys pre hsize hwx hwy
    cases ys with
    | nil => simp [diffElems, JsList.overrideBy, applyPatches]
    | cons b bs =>
      simp only [jsWfList, Bool.and_eq_true] at hwx hwy
      simp only [diffElems]
      rw [applyPatches_append]
      have hidx : (pre.cat (.cons a as)).idx? pre.length = some a :=
        JsList.idx?_cat_length pre a as
      have hin : applyPatches a (diff a b) = some b := by
        refine ih a b ?_ hwx.1 hwy.1
        simp only [jsSizeList] at hsize
        omega
      rw [applyPatches_prefixIdx pre.length (diff a b) _ a b hidx
        (fun p q hm => noRootAdd_diff a b p q hm) hin]
      rw [JsList.set_cat_length pre a b as]
      simp only [Option.some_bind]
      have hshift : pre.cat (.cons b as) = (pre.cat (.cons b .nil)).cat as := by
        rw [JsList.cat_assoc_list]; rfl
      have hlen : (pre.cat (.cons b .nil)).length = pre.length + 1 := by
        rw [JsList.length_cat]
        simp [JsList.length]
      rw [hshift, ← hlen,
        iha bs (pre.cat (.cons b .nil))
          (by simp only [jsSizeList] at hsize ⊢; omega) hwx.2 hwy.2]
      rw [JsList.cat_assoc_list]
      rfl

/-- Phase 2: repeated removal at one index deletes the extra old tail. -/
theorem removesList_apply : ∀ (extra xs : JsList),
    applyPatches (.arr (xs.cat extra))
        (List.replicate extra.length (.remove [.idx xs.length]))
      = some (.arr xs) := by
  intro extra
  induction extra using JsList.inductionOnList with
  | hnil =>
    intro xs
    rw [JsList.cat_nil]
    rfl
  | hcons e rest ih =>
    intro xs
    simp only [JsList.length, List.replicate_succ, applyPatches]
    have hguard : xs.length < (xs.cat (.cons e rest)).length := by
      rw [JsList.length_cat]
      simp [JsList.length]
    simp only [applyOp, removeAtPath, hguard, if_pos,
      JsList.removeAt_cat_length xs e rest]
    exact ih xs

/-- Phase 3: appending the extra new tail element by element. -/
theorem addTail_apply : ∀ (ys pre : JsList),
    applyPatches (.arr pre) (addTail pre.length ys)
      = some (.arr (pre.cat ys)) := by
  intro ys
  induction ys using JsList.inductionOnList with
  | hnil =>
    intro pre
    rw [JsList.cat_nil]
    rfl
  | hcons y t ih =>
    intro pre
    simp only [addTail, applyPatches, applyOp, addAtPath, le_refl, if_pos,
      JsList.insertAt_length pre y]
    have hlen : (pre.cat (.cons y .nil)).length = pre.length + 1 := by
      rw [JsList.length_cat]
      simp [JsList.length]
    rw [← hlen, ih (pre.cat (.cons y .nil)), JsList.cat_assoc_list]
    rfl

/-- Round trip, by strong induction on the combined size. -/
theorem diff_apply_bound : ∀ (N : Nat) (a b : JsValue),
    jsSize a + jsSize b ≤ N → jsWf a = true → jsWf b = true →
    applyPatches a (diff a b) = some b := by
  intro N
  induction N with
  | zero =>
    intro a b h _ _
    have h1 := jsSize_pos a
    have h2 := jsSize_pos b
    omega
  | succ N ihN =>
    intro a b hsize hwa hwb
    have ih : ∀ a2 b2, jsSize a2 + jsSize b2 < N + 1 → jsWf a2 = true →
        jsWf b2 = true → applyPatches a2 (diff a2 b2) = some b2 := by
      intro a2 b2 h hw1 hw2
      exact ihN a2 b2 (by omega) hw1 hw2
    by_cases heq : a = b
    · subst heq
      rw [diff_self]
      rfl
    · cases a with
      | undef => simp [jsWf] at hwa
      | null =>
        cases b <;> first
          | exact absurd rfl heq
          | (rw [diff_ne_shape _ _ heq trivial]; rfl)
      | bool b1 =>
        cases b <;> first
          | exact absurd rfl heq
          | (rw [diff_ne_shape _ _ heq trivial]; rfl)
      | num n1 =>
        cases b <;> first
          | exact absurd rfl heq
          | (rw [diff_ne_shape _ _ heq trivial]; rfl)
      | str s1 =>
        cases b <;> first
          | exact absurd rfl heq
          | (rw [diff_ne_shape _ _ heq trivial]; rfl)
      | obj fa =>
        cases b with
        | obj fb =>
          simp only [jsWf, Bool.and_eq_true] at hwa hwb
          have hA : applyPatches (.obj fa) (removesF fa fb)
              = some (.obj (fa.restrict fb)) :=
            removesF_apply fb fa .nil (fun k _ => rfl) hwa.1
          have hB : applyPatches (.obj (fa.restrict fb)) (commonsF fa fb)
              = some (.obj ((fa.restrict fb).overrideBy fb)) := by
            refine commonsF_apply (N + 1) ih fb hwb.2 fa .nil ?_
              (fun k _ => rfl) hwa.1 hwa.2
            simp only [jsSize] at hsize
            omega
          have hsub : ∀ k, ((fa.restrict fb).overrideBy fb).hasKey k = true →
              fb.hasKey k = true := by
            intro k hk
            rw [JsFields.hasKey_overrideBy, JsFields.hasKey_restrict,
              Bool.and_eq_true] at hk
            exact hk.2
          have hagree : ∀ k v,
              ((fa.restrict fb).overrideBy fb).lookup k = some v →
              fb.lookup k = some v := by
            intro k v hk
            refine JsFields.lookup_overrideBy_sub _ fb k v ?_ hk
            intro k1 hk1
            rw [JsFields.hasKey_restrict, Bool.and_eq_true] at hk1
            exact hk1.2
          have hsortm : ((fa.restrict fb).overrideBy fb).sortedKeys = true := by
            rw [JsFields.sortedKeys_overrideBy]
            exact JsFields.sortedKeys_restrict fa fb hwa.1
          have hcongr : addsF fa fb = addsF ((fa.restrict fb).overrideBy fb) fb := by
            refine addsF_congr fb fa _ fun k hk => ?_
            rw [JsFields.hasKey_overrideBy, JsFields.hasKey_restrict, hk]
            simp
          have hC : applyPatches (.obj ((fa.restrict fb).overrideBy fb))
              (addsF fa fb) = some (.obj fb) := by
            rw [hcongr]
            refine addsF_apply fb _ .nil hsortm hwb.1 hsub hagree ?_
            intro k k2 h _
            simp [JsFields.hasKey] at h
          rw [diff_obj_obj fa fb heq]
          rw [List.append_assoc]
          rw [applyPatches_append, hA, Option.some_bind,
            applyPatches_append, hB, Option.some_bind, hC]
        | undef => simp [jsWf] at hwb
        | null => rw [diff_ne_shape _ _ heq trivial]; rfl
        | bool b2 => rw [diff_ne_shape _ _ heq trivial]; rfl
        | num n2 => rw [diff_ne_shape _ _ heq trivial]; rfl
        | str s2 => rw [diff_ne_shape _ _ heq trivial]; rfl
        | arr x2 => rw [diff_ne_shape _ _ heq trivial]; rfl
      | arr xa =>
        cases b with
        | arr xb =>
          simp only [jsWf] at hwa hwb
          have hE1 : applyPatches (.arr xa) (diffElems 0 xa xb)
              = some (.arr (xa.overrideBy xb)) := by
            refine diffElems_apply (N + 1) ih xa xb .nil ?_ hwa hwb
            simp only [jsSize] at hsize
            omega
          rw [diff_arr_arr xa xb heq]
          rw [List.append_assoc]
          rw [applyPatches_append, hE1, Option.some_bind, applyPatches_append]
          by_cases hlen : xb.length ≤ xa.length
          · have hov : xa.overrideBy xb = xb.cat (JsList.drop xb.length xa) :=
              JsList.overrideBy_of_ge xa xb hlen
            have hcount : xa.length - xb.length
                = (JsList.drop xb.length xa).length := by
              rw [JsList.length_drop]
            have hE2 : applyPatches (.arr (xb.cat (JsList.drop xb.length xa)))
                (List.replicate (JsList.drop xb.length xa).length
                  (.remove [.idx xb.length]))
                = some (.arr xb) := removesList_apply _ xb
            have hnil : JsList.drop xa.length xb = .nil :=
              JsList.drop_of_le xa.length xb hlen
            rw [hov, hcount, hE2, Option.some_bind, hnil]
            rfl
          · have hle : xa.length ≤ xb.length := by omega
            have hov : xa.overrideBy xb = JsList.take xa.length xb :=
              JsList.overrideBy_of_le xa xb hle
            have hzero : xa.length - xb.length = 0 := by omega
            have htl : (JsList.take xa.length xb).length = xa.length :=
              JsList.length_take_of_le xa.length xb hle
            have hE3 : applyPatches (.arr (JsList.take xa.length xb))
                (addTail (JsList.take xa.length xb).length
                  (JsList.drop xa.length xb))
                = some (.arr ((JsList.take xa.length xb).cat
                    (JsList.drop xa.length xb))) :=
              addTail_apply _ _
            rw [hov, hzero, List.replicate_zero]
            simp only [applyPatches, Option.some_bind]
            rw [htl] at hE3
            rw [hE3, JsList.take_cat_drop]
        | undef => simp [jsWf] at hwb
        | null => rw [diff_ne_shape _ _ heq trivial]; rfl
        | bool b2 => rw [diff_ne_shape _ _ heq trivial]; rfl
        | num n2 => rw [diff_ne_shape _ _ heq trivial]; rfl
        | str s2 => rw [diff_ne_shape _ _ heq trivial]; rfl
        | obj f2 => rw [diff_ne_shape _ _ heq trivial]; rfl

/-- C4: `applyPatches(a, generatePatches(a, b)) = b` for all well-formed
JSON documents `a`, `b` (no `undefined`, canonically sorted object keys). -/
theorem applyPatches_generatePatches (a b : JsValue)
    (ha : jsWf a = true) (hb : jsWf b = true) :
    applyPatches a (generatePatches a b) = some b :=
  diff_apply_bound (jsSize a + jsSize b) a b (Nat.le_refl _) ha hb

/-- C4 witness: a concrete round trip exercising nested objects, arrays that
shrink, key removal and key addition. -/
theorem applyPatches_generatePatches_witness :
    applyPatches
      (.obj (.cons "id" (.str "1")
        (.cons "tags" (.arr (.cons (.num 1) (.cons (.num 2) (.cons (.num 3) .nil))))
          (.cons "x" (.num 5) .nil))))
      (generatePatches
        (.obj (.cons "id" (.str "1")
          (.cons "tags" (.arr (.cons (.num 1) (.cons (.num 2) (.cons (.num 3) .nil))))
            (.cons "x" (.num 5) .nil))))
        (.obj (.cons "id" (.str "1")
          (.cons "tags" (.arr (.cons (.num 1) (.cons (.num 9) .nil)))
            (.cons "y" (.bool true) .nil)))))
      = some (.obj (.cons "id" (.str "1")
          (.cons "tags" (.arr (.cons (.num 1) (.cons (.num 9) .nil)))
            (.cons "y" (.bool true) .nil)))) :=
  applyPatches_generatePatches _ _ (by decide) (by decide)
